import Mathlib

/-!
Shallow embedding of `include/llvm/ADT/SCCIterator.h`: the `scc_iterator`
class, which enumerates the strongly connected components of a directed
graph in reverse topological order using an iterative version of Tarjan's
algorithm.

Modeling conventions:
* graph nodes (`NodeType *`) are natural numbers;
* the graph capability (`GraphTraits`) is a record with the entry node and a
  children function returning the finite ordered successor list of a node;
* `DenseMap<NodeType *, unsigned>` is an association list with unique keys;
* the `unsigned` visit record is idealized as `Option Nat`: `some d` is a
  live discovery number, `none` is the reserved value `~0U` that marks a
  node as finalized (member of an already-emitted SCC).  The source never
  compares the sentinel with anything except implicitly (the sentinel is
  larger than every reachable discovery number, so it can never lower a
  min-entry, and never equals a popped frame's min), which is exactly what
  the `Option` translation expresses;
* a `ChildItTy` iterator position is the list of children not yet consumed;
* the unbounded loops of `DFSVisitChildren` and `GetNextSCC` are given an
  explicit fuel; `none` means the fuel ran out (the loops themselves always
  terminate on finite graphs, and all results are stated for runs in which
  enough fuel was supplied).
-/

set_option maxHeartbeats 1000000

namespace SCC

/-- A directed graph as seen through `GraphTraits`: `getEntryNode` and, for
every node, `child_begin`/`child_end` as the ordered list of successors. -/
structure Graph where
  entry : Nat
  children : Nat → List Nat

/-- Value stored in `nodeVisitNumbers`: `some d` is a live discovery number,
`none` models the reserved `~0U` written when a node is emitted. -/
abbrev VisitRec := Option Nat

/-- `DenseMap` lookup (first binding of the key). -/
def mapFind (m : List (Nat × VisitRec)) (k : Nat) : Option VisitRec :=
  match m with
  | [] => none
  | (a, b) :: t => if a = k then some b else mapFind t k

/-- `DenseMap::count`. -/
def mapCount (m : List (Nat × VisitRec)) (k : Nat) : Bool :=
  (mapFind m k).isSome

/-- `DenseMap::operator[] = v`: overwrite the binding if present, otherwise
add one. -/
def mapInsert (m : List (Nat × VisitRec)) (k : Nat) (v : VisitRec) :
    List (Nat × VisitRec) :=
  match m with
  | [] => [(k, v)]
  | (a, b) :: t => if a = k then (k, v) :: t else (a, b) :: mapInsert t k v

/-- `DenseMap::erase`. -/
def mapErase (m : List (Nat × VisitRec)) (k : Nat) : List (Nat × VisitRec) :=
  match m with
  | [] => []
  | (a, b) :: t => if a = k then t else (a, b) :: mapErase t k

/-- The mutable state of an `scc_iterator`.  Stacks are lists whose head is
the `back()` (top) of the corresponding `std::vector`, except `CurrentSCC`,
which is kept in `push_back` order (head = `front()`). -/
structure SccIterator where
  visitNum : Nat
  nodeVisitNumbers : List (Nat × VisitRec)
  SCCNodeStack : List Nat
  CurrentSCC : List Nat
  VisitStack : List (Nat × List Nat)
  MinVisitNumStack : List Nat
deriving DecidableEq, Repr

/-- `scc_iterator::DFSVisitOne`: a single visit in the non-recursive DFS. -/
def DFSVisitOne (g : Graph) (N : Nat) (s : SccIterator) : SccIterator :=
  { s with
    visitNum := s.visitNum + 1
    nodeVisitNumbers := mapInsert s.nodeVisitNumbers N (some (s.visitNum + 1))
    SCCNodeStack := N :: s.SCCNodeStack
    MinVisitNumStack := (s.visitNum + 1) :: s.MinVisitNumStack
    VisitStack := (N, g.children N) :: s.VisitStack }

/-- `if (MinVisitNumStack.back() > childNum) MinVisitNumStack.back() = childNum`. -/
def lowerTopMin (childNum : Nat) : List Nat → List Nat
  | [] => []
  | m :: ms => (if childNum < m then childNum else m) :: ms

/-- `scc_iterator::DFSVisitChildren`: the stack-based DFS traversal.  Runs the
while loop until the cursor of the top frame reaches `child_end`.  The source
asserts `!VisitStack.empty()`; the empty case returns the state unchanged. -/
def DFSVisitChildren (g : Graph) : Nat → SccIterator → Option SccIterator
  | 0, _ => none
  | fuel + 1, s =>
    match s.VisitStack with
    | [] => some s
    | (N, cur) :: rest =>
      match cur with
      | [] => some s
      | childN :: cs =>
        -- NodeType *childN = *VisitStack.back().second++;
        let s1 : SccIterator := { s with VisitStack := (N, cs) :: rest }
        match mapFind s1.nodeVisitNumbers childN with
        | none =>
          -- this node has never been seen
          DFSVisitChildren g fuel (DFSVisitOne g childN s1)
        | some none =>
          -- finalized child: its record is ~0U, which never lowers the min
          DFSVisitChildren g fuel s1
        | some (some childNum) =>
          DFSVisitChildren g fuel
            { s1 with MinVisitNumStack := lowerTopMin childNum s1.MinVisitNumStack }

/-- The `do { CurrentSCC.push_back(SCCNodeStack.back()); SCCNodeStack.pop_back(); }
while (CurrentSCC.back() != visitingN)` loop: split the pending-node stack at
the first occurrence of `visitingN`.  Returns (emitted SCC in `push_back`
order, remaining stack).  An empty stack is undefined behavior in the source
and returns `([], [])` here; the invariants exclude it. -/
def popSCCNodes (visitingN : Nat) : List Nat → List Nat × List Nat
  | [] => ([], [])
  | n :: rest =>
    if n = visitingN then ([n], rest)
    else
      let p := popSCCNodes visitingN rest
      (n :: p.1, p.2)

/-- `nodeVisitNumbers[CurrentSCC.back()] = ~0U;` applied to every emitted node. -/
def finalizeAll (scc : List Nat) (m : List (Nat × VisitRec)) :
    List (Nat × VisitRec) :=
  match scc with
  | [] => m
  | n :: t => finalizeAll t (mapInsert m n none)

/-- The `while (!VisitStack.empty())` loop of `scc_iterator::GetNextSCC`. -/
def GetNextSCCLoop (g : Graph) : Nat → SccIterator → Option SccIterator
  | 0, _ => none
  | fuel + 1, s =>
    match s.VisitStack with
    | [] => some s
    | _ :: _ =>
      match DFSVisitChildren g fuel s with
      | none => none
      | some s1 =>
        match s1.VisitStack, s1.MinVisitNumStack with
        | (visitingN, _cur) :: restVS, minVisitNum :: restMin =>
          -- pop both stacks, then propagate the min into the new top
          let s2 : SccIterator :=
            { s1 with
              VisitStack := restVS
              MinVisitNumStack := lowerTopMin minVisitNum restMin }
          match mapFind s2.nodeVisitNumbers visitingN with
          | some (some d) =>
            if minVisitNum = d then
              -- a full SCC is on SCCNodeStack; copy and finalize it
              let p := popSCCNodes visitingN s2.SCCNodeStack
              some { s2 with
                     CurrentSCC := p.1
                     SCCNodeStack := p.2
                     nodeVisitNumbers := finalizeAll p.1 s2.nodeVisitNumbers }
            else GetNextSCCLoop g fuel s2
          | _ => GetNextSCCLoop g fuel s2
        | _, _ => none
        -- an empty MinVisitNumStack beside a nonempty VisitStack fails the
        -- size assertion in the source; modeled as an aborted run

/-- `scc_iterator::GetNextSCC`: clear `CurrentSCC`, then run the DFS loop. -/
def GetNextSCC (g : Graph) (fuel : Nat) (s : SccIterator) : Option SccIterator :=
  GetNextSCCLoop g fuel { s with CurrentSCC := [] }

/-- The default-constructed end iterator (`scc_iterator()`); `visitNum` is
uninitialized in the source and is modeled as 0 (never read through `end`). -/
def endIter : SccIterator := ⟨0, [], [], [], [], []⟩

/-- The state the private constructor starts from (`visitNum(0)`, all
containers empty) before it calls `DFSVisitOne(entryN)`. -/
def initIterator : SccIterator := ⟨0, [], [], [], [], []⟩

/-- `scc_iterator(NodeType *entryN)` as used by `begin`:
`DFSVisitOne(entryN); GetNextSCC();`. -/
def beginIter (g : Graph) (fuel : Nat) : Option SccIterator :=
  GetNextSCC g fuel (DFSVisitOne g g.entry initIterator)

/-- `scc_iterator::isAtEnd` (the returned expression; the assertion is treated
separately, see the reachable-state claims). -/
def isAtEnd (s : SccIterator) : Bool := s.CurrentSCC.isEmpty

/-- `scc_iterator::operator==`. -/
def iterEq (a b : SccIterator) : Bool :=
  a.VisitStack == b.VisitStack && a.CurrentSCC == b.CurrentSCC

/-- `scc_iterator::operator*`: `none` models the assertion failure
"Dereferencing END SCC iterator!". -/
def derefIter (s : SccIterator) : Option (List Nat) :=
  if s.CurrentSCC.isEmpty then none else some s.CurrentSCC

/-- `scc_iterator::hasLoop`: `none` models the assertion failure on an
exhausted iterator. -/
def hasLoop (g : Graph) (s : SccIterator) : Option Bool :=
  match s.CurrentSCC with
  | [] => none
  | N :: rest =>
    if 1 < (N :: rest).length then some true
    else some ((g.children N).contains N)

/-- `scc_iterator::ReplaceNode`: `none` models the assertion failure
"Old not in scc_iterator?".  On success:
`nodeVisitNumbers[New] = nodeVisitNumbers[Old]; nodeVisitNumbers.erase(Old);`. -/
def ReplaceNode (s : SccIterator) (Old New : Nat) : Option SccIterator :=
  match mapFind s.nodeVisitNumbers Old with
  | none => none
  | some v =>
    some { s with nodeVisitNumbers := mapErase (mapInsert s.nodeVisitNumbers New v) Old }

/-- `operator++` applied `n` times. -/
def advanceN (g : Graph) (fuel : Nat) : Nat → SccIterator → Option SccIterator
  | 0, s => some s
  | n + 1, s =>
    match GetNextSCC g fuel s with
    | none => none
    | some s' => advanceN g fuel n s'

/-- The iterator state after `begin` followed by `n` increments. -/
def stateAfter (g : Graph) (fuel n : Nat) : Option SccIterator :=
  match beginIter g fuel with
  | none => none
  | some s0 => advanceN g fuel n s0

/-- Drive an iterator to the end, collecting each `CurrentSCC` (the usual
`for (I = scc_begin(G); !I.isAtEnd(); ++I)` loop); also returns the final
state. -/
def runFrom (g : Graph) (fuel : Nat) : Nat → SccIterator → Option (List (List Nat) × SccIterator)
  | 0, _ => none
  | n + 1, s =>
    if s.CurrentSCC.isEmpty then some ([], s)
    else
      match GetNextSCC g fuel s with
      | none => none
      | some s' =>
        match runFrom g fuel n s' with
        | none => none
        | some (l, e) => some (s.CurrentSCC :: l, e)

/-- A full enumeration: the list of SCCs emitted between `scc_begin` and the
end state. -/
def enumSCCs (g : Graph) (fuel steps : Nat) : Option (List (List Nat)) :=
  match beginIter g fuel with
  | none => none
  | some s0 =>
    match runFrom g fuel steps s0 with
    | none => none
    | some (l, _) => some l

/-- Reachability along directed edges of the graph. -/
def Reaches (g : Graph) (a b : Nat) : Prop :=
  Relation.ReflTransGen (fun u v => v ∈ g.children u) a b

/-- Two nodes lie in the same strongly connected component. -/
def SameSCC (g : Graph) (u v : Nat) : Prop :=
  Reaches g u v ∧ Reaches g v u

/-- The first components of the association list (the key set of the map). -/
def mapKeys (m : List (Nat × VisitRec)) : List Nat := m.map Prod.fst

/-- A concrete iterator state tracking node 5 with discovery number 3, used
as test input for the node-replacement results. -/
def trackedState : SccIterator := ⟨3, [(5, some 3)], [5], [], [(5, [])], [3]⟩

/-! ### Derived notions used by the invariants -/

/-- The live discovery number of a node: `some d` when its record is a live
`unsigned`, `none` when untracked or finalized. -/
def dnumOpt (s : SccIterator) (n : Nat) : Option Nat :=
  match mapFind s.nodeVisitNumbers n with
  | some (some d) => some d
  | _ => none

/-- Total discovery number (0 when absent or finalized). -/
def dnum (s : SccIterator) (n : Nat) : Nat := (dnumOpt s n).getD 0

/-- A node that has been discovered and not yet emitted. -/
def Active (s : SccIterator) (n : Nat) : Prop := (dnumOpt s n).isSome = true

/-- A node whose record has been overwritten with the sentinel `~0U`. -/
def Finalized (s : SccIterator) (n : Nat) : Prop :=
  mapFind s.nodeVisitNumbers n = some none

/-- A node present in the visit map. -/
def Tracked (s : SccIterator) (n : Nat) : Prop :=
  (mapFind s.nodeVisitNumbers n).isSome = true

/-- The cursor of the first frame for `x` on the visit stack, if any. -/
def frameCursor (vs : List (Nat × List Nat)) (x : Nat) : Option (List Nat) :=
  match vs with
  | [] => none
  | (n, c) :: rest => if n = x then some c else frameCursor rest x

/-- The children of `x` already consumed by the DFS: all of them once `x` has
no frame, otherwise the prefix before the frame's cursor. -/
def processedChildren (g : Graph) (s : SccIterator) (x : Nat) : List Nat :=
  match frameCursor s.VisitStack x with
  | some c => (g.children x).take ((g.children x).length - c.length)
  | none => g.children x

/-- Walk the parallel stacks from the top and return, for a discovery time
`dx`, the first (innermost) frame whose node was discovered no later than
`dx`: its node's discovery number together with its min entry. -/
def segFindAux (dn : Nat → Nat) (dx : Nat) :
    List (Nat × (Nat × List Nat)) → Option (Nat × Nat)
  | [] => none
  | (mn, (n, _)) :: rest =>
    if dn n ≤ dx then some (dn n, mn) else segFindAux dn dx rest

/-- The innermost enclosing frame of a discovery time. -/
def segFrame (s : SccIterator) (dx : Nat) : Option (Nat × Nat) :=
  segFindAux (dnum s) dx (s.MinVisitNumStack.zip s.VisitStack)

/-- Well-formedness of an iterator state mid-enumeration.  These are the
invariants maintained by `DFSVisitOne`, `DFSVisitChildren` and `GetNextSCC`
(the `CurrentSCC` field is unconstrained here; see `IterWF`). -/
structure WF (g : Graph) (s : SccIterator) : Prop where
  keysNodup : (mapKeys s.nodeVisitNumbers).Nodup
  entryTracked : Tracked s g.entry
  reach : ∀ n, Tracked s n → Reaches g g.entry n
  numPos : ∀ n d, dnumOpt s n = some d → 1 ≤ d ∧ d ≤ s.visitNum
  sccNodup : s.SCCNodeStack.Nodup
  activeMem : ∀ n, Active s n ↔ n ∈ s.SCCNodeStack
  sccSorted : s.SCCNodeStack.Pairwise (fun a b => dnum s b < dnum s a)
  frameActive : ∀ p ∈ s.VisitStack, p.1 ∈ s.SCCNodeStack
  frameCursorSuffix : ∀ p ∈ s.VisitStack, ∃ pre, g.children p.1 = pre ++ p.2
  frameSorted : s.VisitStack.Pairwise (fun a b => dnum s b.1 < dnum s a.1)
  frameBottom : ∀ p, s.VisitStack.getLast? = some p →
    s.SCCNodeStack.getLast? = some p.1
  emptyFrames : s.VisitStack = [] → s.SCCNodeStack = []
  minsUpper : List.Forall₂ (fun mn p => mn ≤ dnum s p.1)
    s.MinVisitNumStack s.VisitStack
  minsLower : ∀ p, s.VisitStack.getLast? = some p →
    ∀ mn ∈ s.MinVisitNumStack, dnum s p.1 ≤ mn
  procTracked : ∀ x, Tracked s x → ∀ v ∈ processedChildren g s x, Tracked s v
  finalClosed : ∀ x, Finalized s x → ∀ v ∈ g.children x, Finalized s v
  key : ∀ x, Active s x → ∀ v ∈ processedChildren g s x, Active s v →
    ∃ fd mn, segFrame s (dnum s x) = some (fd, mn) ∧
      (fd ≤ dnum s v ∨ mn ≤ dnum s v)

/-- Well-formedness of the states visible to the caller (between completed
`GetNextSCC` calls). -/
structure IterWF (g : Graph) (s : SccIterator) : Prop where
  wf : WF g s
  curFinal : ∀ n ∈ s.CurrentSCC, Finalized s n
  curNodup : s.CurrentSCC.Nodup
  curEmpty : s.CurrentSCC = [] → s.VisitStack = []

/-! Concrete example graphs (the scenarios of the specification) and concrete
iterator states used as evaluation witnesses. -/

/-- Scenario A: acyclic chain 0 → 1 → 2 from 0 yields {2}, {1}, {0}. -/
def chainGraph : Graph :=
  ⟨0, fun n => if n = 0 then [1] else if n = 1 then [2] else []⟩

/-- Scenario B: cycle 0 → 1 → 2 → 0 plus pendant 3 → 0, entry 3. -/
def pendantGraph : Graph :=
  ⟨3, fun n =>
    if n = 0 then [1] else if n = 1 then [2] else if n = 2 then [0]
    else if n = 3 then [0] else []⟩

/-- Scenario C: self-loop at 7. -/
def selfLoopGraph : Graph :=
  ⟨7, fun n => if n = 7 then [7] else []⟩

/-- The value of `scc_begin(chainGraph)` (checked below by evaluation). -/
def beginChainState : SccIterator :=
  ⟨3, [(0, some 1), (1, some 2), (2, none)], [1, 0], [2], [(1, []), (0, [])], [2, 1]⟩

/-- The iterator on `chainGraph` after `scc_begin` and one `operator++`. -/
def afterOneChainState : SccIterator :=
  ⟨3, [(0, some 1), (1, none), (2, none)], [0], [1], [(0, [])], [1]⟩

/-- The exhausted iterator on `chainGraph` after `scc_begin` and three
`operator++` calls. -/
def endChainState : SccIterator :=
  ⟨3, [(0, none), (1, none), (2, none)], [], [], [], []⟩

/-! Sanity checks: the scenarios of the specification, by evaluation. -/

example : enumSCCs chainGraph 20 20 = some [[2], [1], [0]] := by decide

example : ∃ l, enumSCCs pendantGraph 20 20 = some l ∧ l.length = 2 ∧
    (∃ c, l.head? = some c ∧ c.length = 3 ∧ 0 ∈ c ∧ 1 ∈ c ∧ 2 ∈ c) ∧
    l.getLast? = some [3] := by decide

example : enumSCCs selfLoopGraph 20 20 = some [[7]] := by decide

example : (beginIter selfLoopGraph 20).bind (fun s => hasLoop selfLoopGraph s) =
    some true := by decide

example : (beginIter chainGraph 20).bind (fun s => hasLoop chainGraph s) =
    some false := by decide

example : beginIter chainGraph 20 = some beginChainState := by decide

example : stateAfter chainGraph 20 1 = some afterOneChainState := by decide

example : stateAfter chainGraph 20 3 = some endChainState := by decide

/-! ### Association-list lemmas -/

theorem mapFind_eq_none_iff (m : List (Nat × VisitRec)) (k : Nat) :
    mapFind m k = none ↔ k ∉ mapKeys m := by
  induction m with
  | nil => simp [mapFind, mapKeys]
  | cons p t ih =>
    obtain ⟨a, b⟩ := p
    by_cases h : a = k
    · subst h
      simp [mapFind, mapKeys]
    · simp [mapFind, mapKeys, h, Ne.symm h] at ih ⊢
      exact ih

theorem mapFind_isSome_iff (m : List (Nat × VisitRec)) (k : Nat) :
    (mapFind m k).isSome = true ↔ k ∈ mapKeys m := by
  rcases hf : mapFind m k with _ | v
  · simp [(mapFind_eq_none_iff m k).mp hf]
  · have : ¬ mapFind m k = none := by simp [hf]
    rw [mapFind_eq_none_iff] at this
    simpa using this

theorem mapFind_mem (m : List (Nat × VisitRec)) (k : Nat) (v : VisitRec)
    (h : mapFind m k = some v) : (k, v) ∈ m := by
  induction m with
  | nil => simp [mapFind] at h
  | cons p t ih =>
    obtain ⟨a, b⟩ := p
    by_cases ha : a = k
    · subst ha
      simp [mapFind] at h
      simp [h]
    · simp [mapFind, ha] at h
      simp [ih h]

theorem mapFind_mapInsert_self (m : List (Nat × VisitRec)) (k : Nat) (v : VisitRec) :
    mapFind (mapInsert m k v) k = some v := by
  induction m with
  | nil => simp [mapInsert, mapFind]
  | cons p t ih =>
    obtain ⟨a, b⟩ := p
    by_cases h : a = k
    · subst h
      simp [mapInsert, mapFind]
    · simp [mapInsert, mapFind, h, ih]

theorem mapFind_mapInsert_ne (m : List (Nat × VisitRec)) (k k' : Nat) (v : VisitRec)
    (h : k' ≠ k) : mapFind (mapInsert m k v) k' = mapFind m k' := by
  induction m with
  | nil => simp [mapInsert, mapFind, Ne.symm h]
  | cons p t ih =>
    obtain ⟨a, b⟩ := p
    by_cases ha : a = k
    · subst ha
      simp [mapInsert, mapFind, Ne.symm h]
    · simp only [mapInsert, if_neg ha]
      by_cases hak : a = k'
      · subst hak
        simp [mapFind]
      · simp [mapFind, hak, ih]

theorem mapKeys_nil : mapKeys [] = [] := rfl

theorem mapKeys_cons (a : Nat) (b : VisitRec) (t : List (Nat × VisitRec)) :
    mapKeys ((a, b) :: t) = a :: mapKeys t := rfl

theorem mem_mapKeys_mapInsert (m : List (Nat × VisitRec)) (k a : Nat) (v : VisitRec) :
    a ∈ mapKeys (mapInsert m k v) ↔ a = k ∨ a ∈ mapKeys m := by
  induction m with
  | nil => simp [mapInsert, mapKeys]
  | cons p t ih =>
    obtain ⟨x, y⟩ := p
    by_cases hx : x = k
    · subst hx
      simp [mapInsert, mapKeys_cons, List.mem_cons]
    · simp [mapInsert, hx, mapKeys_cons, List.mem_cons, ih]
      tauto

theorem nodup_mapKeys_mapInsert (m : List (Nat × VisitRec)) (k : Nat) (v : VisitRec)
    (h : (mapKeys m).Nodup) : (mapKeys (mapInsert m k v)).Nodup := by
  induction m with
  | nil => simp [mapInsert, mapKeys]
  | cons p t ih =>
    obtain ⟨x, y⟩ := p
    rw [mapKeys_cons, List.nodup_cons] at h
    by_cases hx : x = k
    · subst hx
      simp only [mapInsert, if_pos, mapKeys_cons, List.nodup_cons]
      exact h
    · simp only [mapInsert, if_neg hx, mapKeys_cons, List.nodup_cons]
      refine ⟨fun hmem => ?_, ih h.2⟩
      rcases (mem_mapKeys_mapInsert t k x v).mp hmem with h1 | h1
      · exact hx h1
      · exact h.1 h1

theorem mapFind_mapErase_ne (m : List (Nat × VisitRec)) (k k' : Nat)
    (h : k' ≠ k) : mapFind (mapErase m k) k' = mapFind m k' := by
  induction m with
  | nil => simp [mapErase]
  | cons p t ih =>
    obtain ⟨a, b⟩ := p
    by_cases ha : a = k
    · subst ha
      simp [mapErase, mapFind, Ne.symm h]
    · by_cases hak : a = k'
      · subst hak
        simp [mapErase, mapFind, ha]
      · simp [mapErase, mapFind, ha, hak, ih]

theorem mapFind_mapErase_self (m : List (Nat × VisitRec)) (k : Nat)
    (h : (mapKeys m).Nodup) : mapFind (mapErase m k) k = none := by
  induction m with
  | nil => simp [mapErase, mapFind]
  | cons p t ih =>
    obtain ⟨a, b⟩ := p
    rw [mapKeys_cons, List.nodup_cons] at h
    by_cases ha : a = k
    · subst ha
      simp only [mapErase, if_pos rfl]
      rw [mapFind_eq_none_iff]
      exact h.1
    · simp only [mapErase, mapFind, if_neg ha]
      exact ih h.2

/-! ### Basic facts about records, stacks and cursors -/

theorem dnumOpt_eq_some_iff (s : SccIterator) (n d : Nat) :
    dnumOpt s n = some d ↔ mapFind s.nodeVisitNumbers n = some (some d) := by
  unfold dnumOpt
  rcases mapFind s.nodeVisitNumbers n with _ | (_ | e) <;> simp

theorem active_dnumOpt (s : SccIterator) (n : Nat) (h : Active s n) :
    dnumOpt s n = some (dnum s n) := by
  unfold Active at h
  rcases hd : dnumOpt s n with _ | d
  · rw [hd] at h; simp at h
  · simp [dnum, hd]

theorem active_mapFind (s : SccIterator) (n : Nat) (h : Active s n) :
    mapFind s.nodeVisitNumbers n = some (some (dnum s n)) :=
  (dnumOpt_eq_some_iff s n (dnum s n)).mp (active_dnumOpt s n h)

theorem active_of_dnumOpt (s : SccIterator) (n d : Nat) (h : dnumOpt s n = some d) :
    Active s n := by
  unfold Active
  simp [h]

theorem active_tracked (s : SccIterator) (n : Nat) (h : Active s n) : Tracked s n := by
  unfold Tracked
  rw [active_mapFind s n h]
  rfl

theorem finalized_tracked (s : SccIterator) (n : Nat) (h : Finalized s n) : Tracked s n := by
  unfold Tracked
  rw [h]
  rfl

theorem active_not_finalized (s : SccIterator) (n : Nat) (h : Active s n) :
    ¬ Finalized s n := by
  intro hf
  unfold Finalized at hf
  have := active_mapFind s n h
  rw [hf] at this
  exact Option.noConfusion (Option.some.inj this)

theorem finalized_dnumOpt_none (s : SccIterator) (n : Nat) (h : Finalized s n) :
    dnumOpt s n = none := by
  unfold Finalized at h
  unfold dnumOpt
  rw [h]

theorem tracked_cases (s : SccIterator) (n : Nat) (h : Tracked s n) :
    Active s n ∨ Finalized s n := by
  unfold Tracked at h
  rcases hf : mapFind s.nodeVisitNumbers n with _ | (_ | d)
  · rw [hf] at h; simp at h
  · exact Or.inr hf
  · exact Or.inl (active_of_dnumOpt s n d ((dnumOpt_eq_some_iff s n d).mpr hf))

theorem dnum_eq (s : SccIterator) (n d : Nat) (h : dnumOpt s n = some d) :
    dnum s n = d := by simp [dnum, h]

/-- Re-express the record notions through the map alone, so that states
sharing the visit map share them. -/
theorem dnumOpt_eq_of_map_eq (s s' : SccIterator) (n : Nat)
    (h : s'.nodeVisitNumbers = s.nodeVisitNumbers) : dnumOpt s' n = dnumOpt s n := by
  unfold dnumOpt
  rw [h]

theorem dnum_eq_of_map_eq (s s' : SccIterator) (n : Nat)
    (h : s'.nodeVisitNumbers = s.nodeVisitNumbers) : dnum s' n = dnum s n := by
  unfold dnum
  rw [dnumOpt_eq_of_map_eq s s' n h]

theorem active_iff_of_map_eq (s s' : SccIterator) (n : Nat)
    (h : s'.nodeVisitNumbers = s.nodeVisitNumbers) : Active s' n ↔ Active s n := by
  unfold Active
  rw [dnumOpt_eq_of_map_eq s s' n h]

theorem finalized_iff_of_map_eq (s s' : SccIterator) (n : Nat)
    (h : s'.nodeVisitNumbers = s.nodeVisitNumbers) : Finalized s' n ↔ Finalized s n := by
  unfold Finalized
  rw [h]

theorem tracked_iff_of_map_eq (s s' : SccIterator) (n : Nat)
    (h : s'.nodeVisitNumbers = s.nodeVisitNumbers) : Tracked s' n ↔ Tracked s n := by
  unfold Tracked
  rw [h]

/-! ### finalizeAll lemmas -/

theorem mapFind_finalizeAll_notmem (l : List Nat) (m : List (Nat × VisitRec)) (n : Nat)
    (h : n ∉ l) : mapFind (finalizeAll l m) n = mapFind m n := by
  induction l generalizing m with
  | nil => rfl
  | cons a t ih =>
    have hna : n ≠ a := fun he => h (he ▸ List.mem_cons_self a t)
    have hnt : n ∉ t := fun hm => h (List.mem_cons_of_mem a hm)
    simp only [finalizeAll]
    rw [ih (mapInsert m a none) hnt, mapFind_mapInsert_ne m a n none hna]

theorem mapFind_finalizeAll_mem (l : List Nat) (m : List (Nat × VisitRec)) (n : Nat)
    (h : n ∈ l) : mapFind (finalizeAll l m) n = some none := by
  induction l generalizing m with
  | nil => simp at h
  | cons a t ih =>
    simp only [finalizeAll]
    by_cases hnt : n ∈ t
    · exact ih (mapInsert m a none) hnt
    · have hna : n = a := by
        rcases List.mem_cons.mp h with h1 | h1
        · exact h1
        · exact absurd h1 hnt
      subst hna
      rw [mapFind_finalizeAll_notmem t (mapInsert m n none) n hnt,
        mapFind_mapInsert_self]

theorem mem_mapKeys_finalizeAll (l : List Nat) (m : List (Nat × VisitRec)) (k : Nat) :
    k ∈ mapKeys (finalizeAll l m) ↔ k ∈ l ∨ k ∈ mapKeys m := by
  induction l generalizing m with
  | nil => simp [finalizeAll]
  | cons a t ih =>
    simp only [finalizeAll]
    rw [ih (mapInsert m a none)]
    rw [mem_mapKeys_mapInsert m a k none]
    simp [List.mem_cons]
    tauto

theorem nodup_mapKeys_finalizeAll (l : List Nat) (m : List (Nat × VisitRec))
    (h : (mapKeys m).Nodup) : (mapKeys (finalizeAll l m)).Nodup := by
  induction l generalizing m with
  | nil => exact h
  | cons a t ih => exact ih (mapInsert m a none) (nodup_mapKeys_mapInsert m a none h)

theorem tracked_finalizeAll (s s' : SccIterator) (l : List Nat) (n : Nat)
    (h : s'.nodeVisitNumbers = finalizeAll l s.nodeVisitNumbers) :
    Tracked s' n ↔ n ∈ l ∨ Tracked s n := by
  unfold Tracked
  rw [h]
  by_cases hm : n ∈ l
  · simp [mapFind_finalizeAll_mem l _ n hm, hm]
  · rw [mapFind_finalizeAll_notmem l _ n hm]
    simp [hm]

/-! ### popSCCNodes lemmas -/

theorem popSCCNodes_append (x : Nat) (a : List Nat) :
    a = (popSCCNodes x a).1 ++ (popSCCNodes x a).2 := by
  induction a with
  | nil => rfl
  | cons n rest ih =>
    by_cases h : n = x
    · simp [popSCCNodes, h]
    · simp only [popSCCNodes, if_neg h]
      simpa using ih

theorem popSCCNodes_fst_getLast (x : Nat) (a : List Nat) (h : x ∈ a) :
    (popSCCNodes x a).1.getLast? = some x := by
  induction a with
  | nil => simp at h
  | cons n rest ih =>
    by_cases hn : n = x
    · simp [popSCCNodes, hn]
    · have hr : x ∈ rest := by
        rcases List.mem_cons.mp h with h1 | h1
        · exact absurd h1.symm hn
        · exact h1
      have := ih hr
      simp only [popSCCNodes, if_neg hn]
      have hne : (popSCCNodes x rest).1 ≠ [] := by
        intro hnil
        rw [hnil] at this
        simp at this
      rcases hl : (popSCCNodes x rest).1 with _ | ⟨b, bs⟩
      · exact absurd hl hne
      · rw [hl] at this
        simpa [List.getLast?_cons_cons] using this

theorem popSCCNodes_fst_ne_nil (x : Nat) (a : List Nat) (h : x ∈ a) :
    (popSCCNodes x a).1 ≠ [] := by
  intro hnil
  have := popSCCNodes_fst_getLast x a h
  rw [hnil] at this
  simp at this

theorem mem_popSCCNodes_fst (x : Nat) (a : List Nat) (h : x ∈ a) :
    x ∈ (popSCCNodes x a).1 :=
  List.mem_of_mem_getLast? (by simp [popSCCNodes_fst_getLast x a h])

theorem popSCCNodes_whole (x : Nat) (a : List Nat) (hn : a.Nodup)
    (h : a.getLast? = some x) : popSCCNodes x a = (a, []) := by
  induction a with
  | nil => simp at h
  | cons n rest ih =>
    rcases hr : rest with _ | ⟨b, bs⟩
    · subst hr
      simp only [List.getLast?_singleton] at h
      have : n = x := by injection h
      simp [popSCCNodes, this]
    · subst hr
      rw [List.getLast?_cons_cons] at h
      have hxrest : x ∈ b :: bs := List.mem_of_mem_getLast? (by simp [h])
      have hn' : n ≠ x := by
        intro he
        subst he
        exact (List.nodup_cons.mp hn).1 hxrest
      have hrec := ih (List.nodup_cons.mp hn).2 h
      rw [popSCCNodes, if_neg hn', hrec]

/-! ### smallest element of a sorted stack -/

theorem pairwise_getLast_le {α : Type} (f : α → Nat) (l : List α) (b : α)
    (hp : l.Pairwise (fun a c => f c < f a)) (hl : l.getLast? = some b) :
    ∀ x ∈ l, f b ≤ f x := by
  induction l with
  | nil => simp at hl
  | cons a t ih =>
    intro x hx
    rcases List.pairwise_cons.mp hp with ⟨ha, ht⟩
    rcases ht' : t with _ | ⟨c, cs⟩
    · subst ht'
      simp only [List.getLast?_singleton] at hl
      have hba : a = b := by injection hl
      rcases List.mem_singleton.mp hx with h1
      subst h1
      rw [hba]
    · subst ht'
      rw [List.getLast?_cons_cons] at hl
      have hbt : b ∈ c :: cs := List.mem_of_mem_getLast? (by simp [hl])
      rcases List.mem_cons.mp hx with h1 | h1
      · subst h1
        exact le_of_lt (ha b hbt)
      · exact ih ht hl x h1

/-! ### frameCursor and processedChildren lemmas -/

theorem frameCursor_cons_self (x : Nat) (c : List Nat) (rest : List (Nat × List Nat)) :
    frameCursor ((x, c) :: rest) x = some c := by simp [frameCursor]

theorem frameCursor_cons_ne (n x : Nat) (c : List Nat) (rest : List (Nat × List Nat))
    (h : n ≠ x) : frameCursor ((n, c) :: rest) x = frameCursor rest x := by
  simp [frameCursor, h]

theorem take_append_cancel (pre c : List Nat) :
    (pre ++ c).take ((pre ++ c).length - c.length) = pre := by
  have : (pre ++ c).length - c.length = pre.length := by
    simp
  rw [this]
  exact List.take_left pre c

theorem processedChildren_no_frame (g : Graph) (s : SccIterator) (x : Nat)
    (h : frameCursor s.VisitStack x = none) :
    processedChildren g s x = g.children x := by
  unfold processedChildren
  rw [h]

theorem processedChildren_frame (g : Graph) (s : SccIterator) (x : Nat)
    (c pre : List Nat) (hfc : frameCursor s.VisitStack x = some c)
    (hsplit : g.children x = pre ++ c) :
    processedChildren g s x = pre := by
  unfold processedChildren
  rw [hfc, hsplit]
  exact take_append_cancel pre c

/-! ### segFindAux lemmas -/

theorem segFindAux_congr (dn dn' : Nat → Nat) (dx : Nat)
    (l : List (Nat × (Nat × List Nat)))
    (h : ∀ p ∈ l, dn' p.2.1 = dn p.2.1) :
    segFindAux dn' dx l = segFindAux dn dx l := by
  induction l with
  | nil => rfl
  | cons p rest ih =>
    obtain ⟨mn, n, c⟩ := p
    have hn : dn' n = dn n := h (mn, n, c) (List.mem_cons_self _ _)
    simp only [segFindAux, hn]
    by_cases hle : dn n ≤ dx
    · simp [hle]
    · simp only [if_neg hle]
      exact ih (fun q hq => h q (List.mem_cons_of_mem _ hq))

theorem segFindAux_cons_le (dn : Nat → Nat) (dx mn n : Nat) (c : List Nat)
    (l : List (Nat × (Nat × List Nat))) (h : dn n ≤ dx) :
    segFindAux dn dx ((mn, (n, c)) :: l) = some (dn n, mn) := by
  simp [segFindAux, h]

theorem segFindAux_cons_gt (dn : Nat → Nat) (dx mn n : Nat) (c : List Nat)
    (l : List (Nat × (Nat × List Nat))) (h : ¬ dn n ≤ dx) :
    segFindAux dn dx ((mn, (n, c)) :: l) = segFindAux dn dx l := by
  simp [segFindAux, h]

/-! ### Reachability helpers -/

theorem reaches_refl (g : Graph) (a : Nat) : Reaches g a a :=
  Relation.ReflTransGen.refl

theorem reaches_step (g : Graph) (a b c : Nat) (h : Reaches g a b)
    (hc : c ∈ g.children b) : Reaches g a c :=
  Relation.ReflTransGen.tail h hc

theorem reaches_closed (g : Graph) (S : Nat → Prop) (a : Nat) (h0 : S a)
    (hS : ∀ u, S u → ∀ v ∈ g.children u, S v) :
    ∀ n, Reaches g a n → S n := by
  intro n h
  induction h with
  | refl => exact h0
  | tail _ hbc ih => exact hS _ ih _ hbc

/-! ### Unfolding equations for DFSVisitChildren -/

theorem DFSVisitChildren_nil (g : Graph) (fuel : Nat) (s : SccIterator)
    (h : s.VisitStack = []) : DFSVisitChildren g (fuel + 1) s = some s := by
  obtain ⟨v, m, st, cur, vs, mins⟩ := s
  simp only at h
  subst h
  rfl

theorem DFSVisitChildren_cursorNil (g : Graph) (fuel : Nat) (s : SccIterator)
    (N : Nat) (rest : List (Nat × List Nat)) (h : s.VisitStack = (N, []) :: rest) :
    DFSVisitChildren g (fuel + 1) s = some s := by
  obtain ⟨v, m, st, cur, vs, mins⟩ := s
  simp only at h
  subst h
  rfl

theorem DFSVisitChildren_new (g : Graph) (fuel : Nat) (s : SccIterator)
    (N c : Nat) (cs : List Nat) (rest : List (Nat × List Nat))
    (h : s.VisitStack = (N, c :: cs) :: rest)
    (hfind : mapFind s.nodeVisitNumbers c = none) :
    DFSVisitChildren g (fuel + 1) s =
      DFSVisitChildren g fuel
        (DFSVisitOne g c { s with VisitStack := (N, cs) :: rest }) := by
  obtain ⟨v, m, st, cur, vs, mins⟩ := s
  simp only at h hfind
  subst h
  simp [DFSVisitChildren, hfind]

theorem DFSVisitChildren_final (g : Graph) (fuel : Nat) (s : SccIterator)
    (N c : Nat) (cs : List Nat) (rest : List (Nat × List Nat))
    (h : s.VisitStack = (N, c :: cs) :: rest)
    (hfind : mapFind s.nodeVisitNumbers c = some none) :
    DFSVisitChildren g (fuel + 1) s =
      DFSVisitChildren g fuel { s with VisitStack := (N, cs) :: rest } := by
  obtain ⟨v, m, st, cur, vs, mins⟩ := s
  simp only at h hfind
  subst h
  simp [DFSVisitChildren, hfind]

theorem DFSVisitChildren_lower (g : Graph) (fuel : Nat) (s : SccIterator)
    (N c cn : Nat) (cs : List Nat) (rest : List (Nat × List Nat))
    (h : s.VisitStack = (N, c :: cs) :: rest)
    (hfind : mapFind s.nodeVisitNumbers c = some (some cn)) :
    DFSVisitChildren g (fuel + 1) s =
      DFSVisitChildren g fuel
        { s with VisitStack := (N, cs) :: rest,
                 MinVisitNumStack := lowerTopMin cn s.MinVisitNumStack } := by
  obtain ⟨v, m, st, cur, vs, mins⟩ := s
  simp only at h hfind
  subst h
  simp [DFSVisitChildren, hfind]

/-! ### Generic helpers for the preservation proofs -/

theorem getLast?_cons_ne {α : Type} (a : α) (l : List α) (h : l ≠ []) :
    (a :: l).getLast? = l.getLast? := by
  rcases l with _ | ⟨b, t⟩
  · exact absurd rfl h
  · exact List.getLast?_cons_cons

theorem processedChildren_congr (g : Graph) (s s' : SccIterator) (x : Nat)
    (h : frameCursor s'.VisitStack x = frameCursor s.VisitStack x) :
    processedChildren g s' x = processedChildren g s x := by
  unfold processedChildren
  rw [h]

theorem WF_active_dnum_le (g : Graph) (s : SccIterator) (hwf : WF g s) (n : Nat)
    (h : Active s n) : dnum s n ≤ s.visitNum :=
  (hwf.numPos n (dnum s n) (active_dnumOpt s n h)).2

theorem WF_active_dnum_pos (g : Graph) (s : SccIterator) (hwf : WF g s) (n : Nat)
    (h : Active s n) : 1 ≤ dnum s n :=
  (hwf.numPos n (dnum s n) (active_dnumOpt s n h)).1

theorem WF_frame_node_active (g : Graph) (s : SccIterator) (hwf : WF g s)
    (p : Nat × List Nat) (h : p ∈ s.VisitStack) : Active s p.1 :=
  (hwf.activeMem p.1).mpr (hwf.frameActive p h)

theorem WF_active_bottom_le (g : Graph) (s : SccIterator) (hwf : WF g s)
    (pb : Nat × List Nat) (hb : s.VisitStack.getLast? = some pb) (n : Nat)
    (h : Active s n) : dnum s pb.1 ≤ dnum s n := by
  have hmem : n ∈ s.SCCNodeStack := (hwf.activeMem n).mp h
  have hlast : s.SCCNodeStack.getLast? = some pb.1 := hwf.frameBottom pb hb
  exact pairwise_getLast_le (dnum s) s.SCCNodeStack pb.1 hwf.sccSorted hlast n hmem

/-- The seven components of `WF` that only concern the visit map, the visit
counter and the pending-node stack transport between states sharing them. -/
theorem WF_core_transport (g : Graph) (s s' : SccIterator)
    (hm : s'.nodeVisitNumbers = s.nodeVisitNumbers)
    (hst : s'.SCCNodeStack = s.SCCNodeStack)
    (hv : s'.visitNum = s.visitNum) (hwf : WF g s) :
    (mapKeys s'.nodeVisitNumbers).Nodup ∧ Tracked s' g.entry ∧
      (∀ n, Tracked s' n → Reaches g g.entry n) ∧
      (∀ n d, dnumOpt s' n = some d → 1 ≤ d ∧ d ≤ s'.visitNum) ∧
      s'.SCCNodeStack.Nodup ∧ (∀ n, Active s' n ↔ n ∈ s'.SCCNodeStack) ∧
      s'.SCCNodeStack.Pairwise (fun a b => dnum s' b < dnum s' a) := by
  refine ⟨?_, ?_, ?_, ?_, ?_, ?_, ?_⟩
  · rw [hm]; exact hwf.keysNodup
  · rw [tracked_iff_of_map_eq s s' g.entry hm]; exact hwf.entryTracked
  · intro n hn
    exact hwf.reach n ((tracked_iff_of_map_eq s s' n hm).mp hn)
  · intro n d hd
    rw [dnumOpt_eq_of_map_eq s s' n hm] at hd
    rw [hv]
    exact hwf.numPos n d hd
  · rw [hst]; exact hwf.sccNodup
  · intro n
    rw [active_iff_of_map_eq s s' n hm, hst]
    exact hwf.activeMem n
  · rw [hst]
    exact hwf.sccSorted.imp_of_mem
      (fun ha hb hr => by
        rw [dnum_eq_of_map_eq s s' _ hm, dnum_eq_of_map_eq s s' _ hm]
        exact hr)

theorem getLast?_cons_cases {α : Type} (a : α) (l : List α) :
    (l = [] ∧ (a :: l).getLast? = some a) ∨
      (l ≠ [] ∧ (a :: l).getLast? = l.getLast?) := by
  rcases l with _ | ⟨b, t⟩
  · exact Or.inl ⟨rfl, rfl⟩
  · exact Or.inr ⟨by simp, List.getLast?_cons_cons⟩

theorem segFindAux_eq_of (dn dn' : Nat → Nat) (dx : Nat)
    (l l' : List (Nat × (Nat × List Nat)))
    (h : List.Forall₂ (fun p q => p.1 = q.1 ∧ dn' p.2.1 = dn q.2.1) l' l) :
    segFindAux dn' dx l' = segFindAux dn dx l := by
  induction h with
  | nil => rfl
  | @cons p q l1 l2 hpq htail ih =>
    obtain ⟨mn', n', c'⟩ := p
    obtain ⟨mn, n, c⟩ := q
    obtain ⟨h1, h2⟩ := hpq
    simp only at h1 h2
    subst h1
    simp only [segFindAux, h2]
    by_cases hle : dn n ≤ dx
    · simp [hle]
    · simp only [if_neg hle]
      exact ih

theorem forall₂_cons_right {α β : Type} (R : α → β → Prop) (l : List α) (b : β)
    (l' : List β) (h : List.Forall₂ R l (b :: l')) :
    ∃ a t, l = a :: t ∧ R a b ∧ List.Forall₂ R t l' := by
  cases h with
  | cons hab htail => exact ⟨_, _, rfl, hab, htail⟩

/-- Preservation of `WF` by one `DFSVisitChildren` iteration that skips a
finalized child (only the top cursor advances). -/
theorem WF_step_final (g : Graph) (s s' : SccIterator) (N c : Nat) (cs : List Nat)
    (rest : List (Nat × List Nat)) (hwf : WF g s)
    (hvs : s.VisitStack = (N, c :: cs) :: rest)
    (hvs' : s'.VisitStack = (N, cs) :: rest)
    (hm : s'.nodeVisitNumbers = s.nodeVisitNumbers)
    (hst : s'.SCCNodeStack = s.SCCNodeStack)
    (hvn : s'.visitNum = s.visitNum)
    (hmins : s'.MinVisitNumStack = s.MinVisitNumStack)
    (hfind : mapFind s.nodeVisitNumbers c = some none) :
    WF g s' := by
  have hdall : ∀ x, dnum s' x = dnum s x := fun x => dnum_eq_of_map_eq s s' x hm
  have haall : ∀ x, Active s' x ↔ Active s x := fun x => active_iff_of_map_eq s s' x hm
  have htall : ∀ x, Tracked s' x ↔ Tracked s x := fun x => tracked_iff_of_map_eq s s' x hm
  have hfall : ∀ x, Finalized s' x ↔ Finalized s x :=
    fun x => finalized_iff_of_map_eq s s' x hm
  obtain ⟨core1, core2, core3, core4, core5, core6, core7⟩ :=
    WF_core_transport g s s' hm hst hvn hwf
  have hmemN : (N, c :: cs) ∈ s.VisitStack := by rw [hvs]; exact List.mem_cons_self _ _
  obtain ⟨pre, hpre0⟩ := hwf.frameCursorSuffix (N, c :: cs) hmemN
  have hpre : g.children N = pre ++ c :: cs := hpre0
  -- processed children before and after the cursor advance
  have hprocN : processedChildren g s N = pre :=
    processedChildren_frame g s N (c :: cs) pre
      (by rw [hvs]; exact frameCursor_cons_self N (c :: cs) rest) hpre
  have hprocN' : processedChildren g s' N = pre ++ [c] :=
    processedChildren_frame g s' N cs (pre ++ [c])
      (by rw [hvs']; exact frameCursor_cons_self N cs rest)
      (by rw [hpre]; simp)
  have hprocK : ∀ x, x ≠ N → processedChildren g s' x = processedChildren g s x := by
    intro x hx
    refine processedChildren_congr g s s' x ?_
    rw [hvs, hvs', frameCursor_cons_ne N x _ _ (fun he => hx he.symm),
      frameCursor_cons_ne N x _ _ (fun he => hx he.symm)]
  -- min-stack shape
  have hfa := hwf.minsUpper
  rw [hvs] at hfa
  obtain ⟨m1, ms, hminseq, hm10, hms⟩ := forall₂_cons_right _ _ _ _ hfa
  have hm1 : m1 ≤ dnum s N := hm10
  -- the seg structure is unchanged
  have hseg : ∀ dx, segFrame s' dx = segFrame s dx := by
    intro dx
    unfold segFrame
    rw [hmins, hminseq, hvs, hvs', List.zip_cons_cons, List.zip_cons_cons]
    refine segFindAux_eq_of (dnum s) (dnum s') dx _ _ ?_
    refine List.Forall₂.cons ⟨rfl, hdall N⟩ ?_
    exact List.forall₂_same.mpr (fun p _ => ⟨rfl, hdall _⟩)
  refine ⟨core1, core2, core3, core4, core5, core6, core7,
    ?_, ?_, ?_, ?_, ?_, ?_, ?_, ?_, ?_, ?_⟩
  · -- frameActive
    intro p hp
    rw [hvs'] at hp
    rw [hst]
    rcases List.mem_cons.mp hp with h1 | h1
    · subst h1
      exact hwf.frameActive (N, c :: cs) hmemN
    · exact hwf.frameActive p (by rw [hvs]; exact List.mem_cons_of_mem _ h1)
  · -- frameCursorSuffix
    intro p hp
    rw [hvs'] at hp
    rcases List.mem_cons.mp hp with h1 | h1
    · subst h1
      exact ⟨pre ++ [c], by show g.children N = (pre ++ [c]) ++ cs; rw [hpre]; simp⟩
    · exact hwf.frameCursorSuffix p (by rw [hvs]; exact List.mem_cons_of_mem _ h1)
  · -- frameSorted
    rw [hvs']
    have hold := hwf.frameSorted
    rw [hvs] at hold
    rcases List.pairwise_cons.mp hold with ⟨hhead, htail⟩
    refine List.pairwise_cons.mpr ⟨?_, ?_⟩
    · intro b hb
      rw [hdall, hdall]
      exact hhead b hb
    · exact htail.imp_of_mem (fun ha hb hr => by rw [hdall, hdall]; exact hr)
  · -- frameBottom
    intro p hp
    rw [hvs'] at hp
    rw [hst]
    rcases getLast?_cons_cases (N, cs) rest with ⟨hrnil, hgl⟩ | ⟨hrne, hgl⟩
    · rw [hgl] at hp
      have hpv : p = (N, cs) := by
        injection hp with h
        exact h.symm
      have hb := hwf.frameBottom (N, c :: cs) (by rw [hvs, hrnil]; rfl)
      rw [hpv]
      exact hb
    · rw [hgl] at hp
      exact hwf.frameBottom p
        (by rw [hvs, getLast?_cons_ne _ _ hrne]; exact hp)
  · -- emptyFrames
    intro h
    rw [hvs'] at h
    simp at h
  · -- minsUpper
    rw [hmins, hminseq, hvs']
    refine List.Forall₂.cons ?_ ?_
    · rw [hdall]
      exact hm1
    · exact hms.imp (fun a b h => by rw [hdall]; exact h)
  · -- minsLower
    intro p hp mn hmn
    rw [hmins] at hmn
    rw [hvs'] at hp
    rw [hdall]
    rcases getLast?_cons_cases (N, cs) rest with ⟨hrnil, hgl⟩ | ⟨hrne, hgl⟩
    · rw [hgl] at hp
      have hpv : p = (N, cs) := by
        injection hp with h
        exact h.symm
      have hlow := hwf.minsLower (N, c :: cs) (by rw [hvs, hrnil]; rfl) mn hmn
      rw [hpv]
      exact hlow
    · rw [hgl] at hp
      exact hwf.minsLower p
        (by rw [hvs, getLast?_cons_ne _ _ hrne]; exact hp) mn hmn
  · -- procTracked
    intro x hx v hv
    rw [htall] at hx ⊢
    by_cases hxN : x = N
    · subst hxN
      rw [hprocN'] at hv
      rcases List.mem_append.mp hv with h1 | h1
      · exact hwf.procTracked x hx v (by rw [hprocN]; exact h1)
      · have hvc : v = c := by simpa using h1
        subst hvc
        unfold Tracked
        rw [hfind]
        rfl
    · rw [hprocK x hxN] at hv
      exact hwf.procTracked x hx v hv
  · -- finalClosed
    intro x hx v hv
    rw [hfall] at hx ⊢
    exact hwf.finalClosed x hx v hv
  · -- key
    intro x hx v hv hva
    rw [haall] at hx hva
    simp only [hdall, hseg]
    by_cases hxN : x = N
    · subst hxN
      rw [hprocN'] at hv
      rcases List.mem_append.mp hv with h1 | h1
      · exact hwf.key x hx v (by rw [hprocN]; exact h1) hva
      · exfalso
        have hvc : v = c := by simpa using h1
        subst hvc
        exact active_not_finalized s v hva hfind
    · rw [hprocK x hxN] at hv
      exact hwf.key x hx v hv hva

/-- Preservation of `WF` by one `DFSVisitChildren` iteration that sees an
already-discovered, still-active child: the cursor advances and the top
min-entry is lowered to the child's discovery number when smaller. -/
theorem WF_step_lower (g : Graph) (s s' : SccIterator) (N c cn : Nat) (cs : List Nat)
    (rest : List (Nat × List Nat)) (hwf : WF g s)
    (hvs : s.VisitStack = (N, c :: cs) :: rest)
    (hvs' : s'.VisitStack = (N, cs) :: rest)
    (hm : s'.nodeVisitNumbers = s.nodeVisitNumbers)
    (hst : s'.SCCNodeStack = s.SCCNodeStack)
    (hvn : s'.visitNum = s.visitNum)
    (hmins : s'.MinVisitNumStack = lowerTopMin cn s.MinVisitNumStack)
    (hfind : mapFind s.nodeVisitNumbers c = some (some cn)) :
    WF g s' := by
  have hdall : ∀ x, dnum s' x = dnum s x := fun x => dnum_eq_of_map_eq s s' x hm
  have haall : ∀ x, Active s' x ↔ Active s x := fun x => active_iff_of_map_eq s s' x hm
  have htall : ∀ x, Tracked s' x ↔ Tracked s x := fun x => tracked_iff_of_map_eq s s' x hm
  have hfall : ∀ x, Finalized s' x ↔ Finalized s x :=
    fun x => finalized_iff_of_map_eq s s' x hm
  have hcact : Active s c := active_of_dnumOpt s c cn ((dnumOpt_eq_some_iff s c cn).mpr hfind)
  have hdc : dnum s c = cn := dnum_eq s c cn ((dnumOpt_eq_some_iff s c cn).mpr hfind)
  obtain ⟨core1, core2, core3, core4, core5, core6, core7⟩ :=
    WF_core_transport g s s' hm hst hvn hwf
  have hmemN : (N, c :: cs) ∈ s.VisitStack := by rw [hvs]; exact List.mem_cons_self _ _
  obtain ⟨pre, hpre0⟩ := hwf.frameCursorSuffix (N, c :: cs) hmemN
  have hpre : g.children N = pre ++ c :: cs := hpre0
  have hprocN : processedChildren g s N = pre :=
    processedChildren_frame g s N (c :: cs) pre
      (by rw [hvs]; exact frameCursor_cons_self N (c :: cs) rest) hpre
  have hprocN' : processedChildren g s' N = pre ++ [c] :=
    processedChildren_frame g s' N cs (pre ++ [c])
      (by rw [hvs']; exact frameCursor_cons_self N cs rest)
      (by rw [hpre]; simp)
  have hprocK : ∀ x, x ≠ N → processedChildren g s' x = processedChildren g s x := by
    intro x hx
    refine processedChildren_congr g s s' x ?_
    rw [hvs, hvs', frameCursor_cons_ne N x _ _ (fun he => hx he.symm),
      frameCursor_cons_ne N x _ _ (fun he => hx he.symm)]
  -- min-stack shape
  have hfa := hwf.minsUpper
  rw [hvs] at hfa
  obtain ⟨m1, ms, hminseq, hm10, hms⟩ := forall₂_cons_right _ _ _ _ hfa
  have hm1 : m1 ≤ dnum s N := hm10
  have hminseq' : s'.MinVisitNumStack = (if cn < m1 then cn else m1) :: ms := by
    rw [hmins, hminseq]
    rfl
  have hminle : (if cn < m1 then cn else m1) ≤ m1 := by
    by_cases h : cn < m1 <;> simp [h] <;> omega
  have hmincn : (if cn < m1 then cn else m1) ≤ cn := by
    by_cases h : cn < m1 <;> simp [h] <;> omega
  -- seg transfer: same frame, possibly lowered min
  have hsegT : ∀ dx fd mn, segFrame s dx = some (fd, mn) →
      ∃ mn', segFrame s' dx = some (fd, mn') ∧ mn' ≤ mn := by
    intro dx fd mn hsg
    unfold segFrame at hsg ⊢
    rw [hminseq, hvs, List.zip_cons_cons] at hsg
    rw [hminseq', hvs', List.zip_cons_cons]
    by_cases hle : dnum s N ≤ dx
    · rw [segFindAux_cons_le (dnum s) dx m1 N (c :: cs) _ hle] at hsg
      injection hsg with hsg'
      have he1 : dnum s N = fd := congrArg Prod.fst hsg'
      have he2 : m1 = mn := congrArg Prod.snd hsg'
      rw [segFindAux_cons_le (dnum s') dx _ N cs _ (by rw [hdall]; exact hle)]
      refine ⟨if cn < m1 then cn else m1, ?_, ?_⟩
      · rw [hdall, he1]
      · rw [← he2]
        exact hminle
    · rw [segFindAux_cons_gt (dnum s) dx m1 N (c :: cs) _ hle] at hsg
      rw [segFindAux_cons_gt (dnum s') dx _ N cs _ (by rw [hdall]; exact hle)]
      rw [segFindAux_eq_of (dnum s) (dnum s') dx (ms.zip rest) (ms.zip rest)
        (List.forall₂_same.mpr (fun p _ => ⟨rfl, hdall _⟩))]
      exact ⟨mn, hsg, le_refl mn⟩
  refine ⟨core1, core2, core3, core4, core5, core6, core7,
    ?_, ?_, ?_, ?_, ?_, ?_, ?_, ?_, ?_, ?_⟩
  · -- frameActive
    intro p hp
    rw [hvs'] at hp
    rw [hst]
    rcases List.mem_cons.mp hp with h1 | h1
    · subst h1
      exact hwf.frameActive (N, c :: cs) hmemN
    · exact hwf.frameActive p (by rw [hvs]; exact List.mem_cons_of_mem _ h1)
  · -- frameCursorSuffix
    intro p hp
    rw [hvs'] at hp
    rcases List.mem_cons.mp hp with h1 | h1
    · subst h1
      exact ⟨pre ++ [c], by show g.children N = (pre ++ [c]) ++ cs; rw [hpre]; simp⟩
    · exact hwf.frameCursorSuffix p (by rw [hvs]; exact List.mem_cons_of_mem _ h1)
  · -- frameSorted
    rw [hvs']
    have hold := hwf.frameSorted
    rw [hvs] at hold
    rcases List.pairwise_cons.mp hold with ⟨hhead, htail⟩
    refine List.pairwise_cons.mpr ⟨?_, ?_⟩
    · intro b hb
      rw [hdall, hdall]
      exact hhead b hb
    · exact htail.imp_of_mem (fun ha hb hr => by rw [hdall, hdall]; exact hr)
  · -- frameBottom
    intro p hp
    rw [hvs'] at hp
    rw [hst]
    rcases getLast?_cons_cases (N, cs) rest with ⟨hrnil, hgl⟩ | ⟨hrne, hgl⟩
    · rw [hgl] at hp
      have hpv : p = (N, cs) := by
        injection hp with h
        exact h.symm
      have hb := hwf.frameBottom (N, c :: cs) (by rw [hvs, hrnil]; rfl)
      rw [hpv]
      exact hb
    · rw [hgl] at hp
      exact hwf.frameBottom p
        (by rw [hvs, getLast?_cons_ne _ _ hrne]; exact hp)
  · -- emptyFrames
    intro h
    rw [hvs'] at h
    simp at h
  · -- minsUpper
    rw [hminseq', hvs']
    refine List.Forall₂.cons ?_ ?_
    · rw [hdall]
      exact le_trans hminle hm1
    · exact hms.imp (fun a b h => by rw [hdall]; exact h)
  · -- minsLower
    intro p hp mn hmn
    rw [hminseq'] at hmn
    rw [hvs'] at hp
    rw [hdall]
    have hbot : s.VisitStack.getLast? = some
        (if rest = [] then (N, c :: cs) else p) := by
      rcases getLast?_cons_cases (N, cs) rest with ⟨hrnil, hgl⟩ | ⟨hrne, hgl⟩
      · rw [hvs, hrnil]
        simp [hrnil]
      · rw [hvs, getLast?_cons_ne _ _ hrne]
        rw [hgl] at hp
        simp [hrne, hp]
    rcases List.mem_cons.mp hmn with h1 | h1
    · -- the lowered head entry
      subst h1
      have hp1 : dnum s p.1 ≤ cn := by
        rcases getLast?_cons_cases (N, cs) rest with ⟨hrnil, hgl⟩ | ⟨hrne, hgl⟩
        · rw [hgl] at hp
          have hpv : p = (N, cs) := by
            injection hp with h
            exact h.symm
          rw [hrnil] at hbot
          simp only [if_pos] at hbot
          rw [hpv, ← hdc]
          exact WF_active_bottom_le g s hwf (N, c :: cs) hbot c hcact
        · rw [if_neg hrne] at hbot
          rw [← hdc]
          exact WF_active_bottom_le g s hwf p hbot c hcact
      have hp2 : dnum s p.1 ≤ m1 := by
        rcases getLast?_cons_cases (N, cs) rest with ⟨hrnil, hgl⟩ | ⟨hrne, hgl⟩
        · rw [hgl] at hp
          have hpv : p = (N, cs) := by
            injection hp with h
            exact h.symm
          rw [hrnil] at hbot
          simp only [if_pos] at hbot
          rw [hpv]
          exact hwf.minsLower (N, c :: cs) hbot m1 (by rw [hminseq]; simp)
        · rw [if_neg hrne] at hbot
          exact hwf.minsLower p hbot m1 (by rw [hminseq]; simp)
      by_cases h : cn < m1 <;> simp [h] <;> omega
    · -- an untouched entry deeper in the stack
      rcases getLast?_cons_cases (N, cs) rest with ⟨hrnil, hgl⟩ | ⟨hrne, hgl⟩
      · rw [hgl] at hp
        have hpv : p = (N, cs) := by
          injection hp with h
          exact h.symm
        rw [hrnil] at hbot
        simp only [if_pos] at hbot
        rw [hpv]
        exact hwf.minsLower (N, c :: cs) hbot mn (by rw [hminseq]; simp [h1])
      · rw [if_neg hrne] at hbot
        exact hwf.minsLower p hbot mn (by rw [hminseq]; simp [h1])
  · -- procTracked
    intro x hx v hv
    rw [htall] at hx ⊢
    by_cases hxN : x = N
    · subst hxN
      rw [hprocN'] at hv
      rcases List.mem_append.mp hv with h1 | h1
      · exact hwf.procTracked x hx v (by rw [hprocN]; exact h1)
      · have hvc : v = c := by simpa using h1
        subst hvc
        unfold Tracked
        rw [hfind]
        rfl
    · rw [hprocK x hxN] at hv
      exact hwf.procTracked x hx v hv
  · -- finalClosed
    intro x hx v hv
    rw [hfall] at hx ⊢
    exact hwf.finalClosed x hx v hv
  · -- key
    intro x hx v hv hva
    rw [haall] at hx hva
    simp only [hdall]
    by_cases hxN : x = N
    · subst hxN
      rw [hprocN'] at hv
      rcases List.mem_append.mp hv with h1 | h1
      · obtain ⟨fd, mn, hsg, hdisj⟩ := hwf.key x hx v (by rw [hprocN]; exact h1) hva
        obtain ⟨mn', hsg', hle'⟩ := hsegT (dnum s x) fd mn hsg
        exact ⟨fd, mn', hsg', hdisj.imp id (fun h => le_trans hle' h)⟩
      · have hvc : v = c := by simpa using h1
        subst hvc
        -- the freshly consumed back edge: the top min entry now dominates it
        refine ⟨dnum s x, if cn < m1 then cn else m1, ?_, Or.inr ?_⟩
        · unfold segFrame
          rw [hminseq', hvs', List.zip_cons_cons]
          rw [segFindAux_cons_le (dnum s') (dnum s x) _ x cs _ (by rw [hdall])]
          rw [hdall]
        · rw [hdc]
          exact hmincn
    · rw [hprocK x hxN] at hv
      obtain ⟨fd, mn, hsg, hdisj⟩ := hwf.key x hx v hv hva
      obtain ⟨mn', hsg', hle'⟩ := hsegT (dnum s x) fd mn hsg
      exact ⟨fd, mn', hsg', hdisj.imp id (fun h => le_trans hle' h)⟩

theorem forall₂_imp_mem {α β : Type} {R S : α → β → Prop} {l : List α} {l' : List β}
    (h : List.Forall₂ R l l') (himp : ∀ a b, a ∈ l → b ∈ l' → R a b → S a b) :
    List.Forall₂ S l l' := by
  induction h with
  | nil => exact List.Forall₂.nil
  | @cons a b t t' hab htl ih =>
    refine List.Forall₂.cons
      (himp a b (List.mem_cons_self _ _) (List.mem_cons_self _ _) hab) ?_
    exact ih (fun a' b' ha hb hr =>
      himp a' b' (List.mem_cons_of_mem _ ha) (List.mem_cons_of_mem _ hb) hr)

/-- Preservation of `WF` by one `DFSVisitChildren` iteration that discovers a
new child: the cursor advances and `DFSVisitOne` pushes a fresh frame. -/
theorem WF_step_new (g : Graph) (s s' : SccIterator) (N c : Nat) (cs : List Nat)
    (rest : List (Nat × List Nat)) (hwf : WF g s)
    (hvs : s.VisitStack = (N, c :: cs) :: rest)
    (hvs' : s'.VisitStack = (c, g.children c) :: (N, cs) :: rest)
    (hm : s'.nodeVisitNumbers = mapInsert s.nodeVisitNumbers c (some (s.visitNum + 1)))
    (hst : s'.SCCNodeStack = c :: s.SCCNodeStack)
    (hvn : s'.visitNum = s.visitNum + 1)
    (hmins : s'.MinVisitNumStack = (s.visitNum + 1) :: s.MinVisitNumStack)
    (hfind : mapFind s.nodeVisitNumbers c = none) :
    WF g s' := by
  have hctrk : ¬ Tracked s c := by
    unfold Tracked
    rw [hfind]
    simp
  have hfind' : ∀ n, n ≠ c → mapFind s'.nodeVisitNumbers n = mapFind s.nodeVisitNumbers n := by
    intro n hn
    rw [hm]
    exact mapFind_mapInsert_ne _ _ _ _ hn
  have hfindc : mapFind s'.nodeVisitNumbers c = some (some (s.visitNum + 1)) := by
    rw [hm]
    exact mapFind_mapInsert_self _ _ _
  have hdall : ∀ n, n ≠ c → dnum s' n = dnum s n := by
    intro n hn
    unfold dnum dnumOpt
    rw [hfind' n hn]
  have hdc : dnum s' c = s.visitNum + 1 := by
    unfold dnum dnumOpt
    rw [hfindc]
    rfl
  have hcact' : Active s' c := by
    unfold Active dnumOpt
    rw [hfindc]
    rfl
  have htall : ∀ n, n ≠ c → (Tracked s' n ↔ Tracked s n) := by
    intro n hn
    unfold Tracked
    rw [hfind' n hn]
  have haall : ∀ n, n ≠ c → (Active s' n ↔ Active s n) := by
    intro n hn
    unfold Active dnumOpt
    rw [hfind' n hn]
  have hfall : ∀ n, Finalized s' n ↔ Finalized s n := by
    intro n
    by_cases hn : n = c
    · subst hn
      unfold Finalized
      rw [hfindc, hfind]
      simp
    · unfold Finalized
      rw [hfind' n hn]
  have htne : ∀ n, Tracked s n → n ≠ c := by
    intro n hn he
    exact hctrk (he ▸ hn)
  have hane : ∀ n, Active s n → n ≠ c := fun n hn => htne n (active_tracked s n hn)
  have hcstk : c ∉ s.SCCNodeStack := by
    intro hmem
    exact hctrk (active_tracked s c ((hwf.activeMem c).mpr hmem))
  have hmemN : (N, c :: cs) ∈ s.VisitStack := by rw [hvs]; exact List.mem_cons_self _ _
  have hNact : Active s N := WF_frame_node_active g s hwf (N, c :: cs) hmemN
  have hNc : N ≠ c := hane N hNact
  obtain ⟨pre, hpre0⟩ := hwf.frameCursorSuffix (N, c :: cs) hmemN
  have hpre : g.children N = pre ++ c :: cs := hpre0
  have hprocN : processedChildren g s N = pre :=
    processedChildren_frame g s N (c :: cs) pre
      (by rw [hvs]; exact frameCursor_cons_self N (c :: cs) rest) hpre
  have hprocN' : processedChildren g s' N = pre ++ [c] :=
    processedChildren_frame g s' N cs (pre ++ [c])
      (by rw [hvs', frameCursor_cons_ne c N _ _ (fun he => hNc he.symm)]
          exact frameCursor_cons_self N cs rest)
      (by rw [hpre]; simp)
  have hprocC : processedChildren g s' c = [] := by
    unfold processedChildren
    rw [hvs', frameCursor_cons_self]
    simp
  have hprocK : ∀ x, x ≠ N → x ≠ c →
      processedChildren g s' x = processedChildren g s x := by
    intro x hxN hxc
    refine processedChildren_congr g s s' x ?_
    rw [hvs, hvs', frameCursor_cons_ne c x _ _ (fun he => hxc he.symm),
      frameCursor_cons_ne N x _ _ (fun he => hxN he.symm),
      frameCursor_cons_ne N x _ _ (fun he => hxN he.symm)]
  have hfa := hwf.minsUpper
  rw [hvs] at hfa
  obtain ⟨m1, ms, hminseq, hm10, hms⟩ := forall₂_cons_right _ _ _ _ hfa
  have hm1 : m1 ≤ dnum s N := hm10
  have hdNle : dnum s N ≤ s.visitNum := WF_active_dnum_le g s hwf N hNact
  -- seg transfer for discovery times not exceeding the old counter
  have hsegT : ∀ dx, dx ≤ s.visitNum → segFrame s' dx = segFrame s dx := by
    intro dx hdx
    unfold segFrame
    rw [hmins, hminseq, hvs, hvs', List.zip_cons_cons, List.zip_cons_cons,
      List.zip_cons_cons]
    rw [segFindAux_cons_gt (dnum s') dx _ c _ _ (by rw [hdc]; omega)]
    refine segFindAux_eq_of (dnum s) (dnum s') dx _ _ ?_
    refine List.Forall₂.cons ⟨rfl, hdall N hNc⟩ ?_
    refine List.forall₂_same.mpr ?_
    intro p hp
    obtain ⟨mn, q⟩ := p
    have hq : q ∈ rest := (List.of_mem_zip hp).2
    have hqact : Active s q.1 := WF_frame_node_active g s hwf q
      (by rw [hvs]; exact List.mem_cons_of_mem _ hq)
    exact ⟨rfl, hdall q.1 (hane q.1 hqact)⟩
  refine ⟨?_, ?_, ?_, ?_, ?_, ?_, ?_, ?_, ?_, ?_, ?_, ?_, ?_, ?_, ?_, ?_, ?_⟩
  · -- keysNodup
    rw [hm]
    exact nodup_mapKeys_mapInsert _ _ _ hwf.keysNodup
  · -- entryTracked
    have he := hwf.entryTracked
    rw [htall g.entry (htne g.entry he)]
    exact he
  · -- reach
    intro n hn
    by_cases hnc : n = c
    · subst hnc
      refine reaches_step g g.entry N n (hwf.reach N (active_tracked s N hNact)) ?_
      rw [hpre]
      simp
    · rw [htall n hnc] at hn
      exact hwf.reach n hn
  · -- numPos
    intro n d hd
    rw [hvn]
    by_cases hnc : n = c
    · subst hnc
      rw [dnumOpt_eq_some_iff, hfindc] at hd
      have : s.visitNum + 1 = d := by
        injection hd with h1
        injection h1
      omega
    · rw [dnumOpt_eq_some_iff, hfind' n hnc, ← dnumOpt_eq_some_iff] at hd
      have := hwf.numPos n d hd
      omega
  · -- sccNodup
    rw [hst]
    exact List.nodup_cons.mpr ⟨hcstk, hwf.sccNodup⟩
  · -- activeMem
    intro n
    rw [hst]
    by_cases hnc : n = c
    · subst hnc
      simp [hcact', List.mem_cons]
    · rw [haall n hnc]
      rw [hwf.activeMem n]
      simp [List.mem_cons, hnc]
  · -- sccSorted
    rw [hst]
    refine List.pairwise_cons.mpr ⟨?_, ?_⟩
    · intro b hb
      have hbact : Active s b := (hwf.activeMem b).mpr hb
      rw [hdc, hdall b (hane b hbact)]
      have := WF_active_dnum_le g s hwf b hbact
      omega
    · refine hwf.sccSorted.imp_of_mem (fun ha hb hr => ?_)
      rw [hdall _ (hane _ ((hwf.activeMem _).mpr ha)),
        hdall _ (hane _ ((hwf.activeMem _).mpr hb))]
      exact hr
  · -- frameActive
    intro p hp
    rw [hvs'] at hp
    rw [hst]
    rcases List.mem_cons.mp hp with h1 | h1
    · subst h1
      exact List.mem_cons_self _ _
    · rcases List.mem_cons.mp h1 with h2 | h2
      · subst h2
        exact List.mem_cons_of_mem _ (hwf.frameActive (N, c :: cs) hmemN)
      · exact List.mem_cons_of_mem _
          (hwf.frameActive p (by rw [hvs]; exact List.mem_cons_of_mem _ h2))
  · -- frameCursorSuffix
    intro p hp
    rw [hvs'] at hp
    rcases List.mem_cons.mp hp with h1 | h1
    · subst h1
      exact ⟨[], by simp⟩
    · rcases List.mem_cons.mp h1 with h2 | h2
      · subst h2
        exact ⟨pre ++ [c], by show g.children N = (pre ++ [c]) ++ cs; rw [hpre]; simp⟩
      · exact hwf.frameCursorSuffix p (by rw [hvs]; exact List.mem_cons_of_mem _ h2)
  · -- frameSorted
    rw [hvs']
    have hold := hwf.frameSorted
    rw [hvs] at hold
    rcases List.pairwise_cons.mp hold with ⟨hhead, htail⟩
    refine List.pairwise_cons.mpr ⟨?_, List.pairwise_cons.mpr ⟨?_, ?_⟩⟩
    · intro q hq
      have hqact : Active s q.1 := by
        rcases List.mem_cons.mp hq with h2 | h2
        · subst h2
          exact hNact
        · exact WF_frame_node_active g s hwf q
            (by rw [hvs]; exact List.mem_cons_of_mem _ h2)
      rw [hdc, hdall q.1 (hane q.1 hqact)]
      have := WF_active_dnum_le g s hwf q.1 hqact
      omega
    · intro b hb
      have hbact : Active s b.1 := WF_frame_node_active g s hwf b
        (by rw [hvs]; exact List.mem_cons_of_mem _ hb)
      rw [hdall b.1 (hane b.1 hbact), hdall N hNc]
      exact hhead b hb
    · refine htail.imp_of_mem (fun ha hb hr => ?_)
      have haact : Active s _ := WF_frame_node_active g s hwf _
        (by rw [hvs]; exact List.mem_cons_of_mem _ ha)
      have hbact : Active s _ := WF_frame_node_active g s hwf _
        (by rw [hvs]; exact List.mem_cons_of_mem _ hb)
      rw [hdall _ (hane _ haact), hdall _ (hane _ hbact)]
      exact hr
  · -- frameBottom
    intro p hp
    rw [hvs', List.getLast?_cons_cons] at hp
    rw [hst]
    have hstne : s.SCCNodeStack ≠ [] := by
      intro hnil
      rw [hnil] at hcstk
      have := hwf.frameActive (N, c :: cs) hmemN
      rw [hnil] at this
      simp at this
    rw [getLast?_cons_ne c _ hstne]
    rcases getLast?_cons_cases (N, cs) rest with ⟨hrnil, hgl⟩ | ⟨hrne, hgl⟩
    · rw [hgl] at hp
      have hpv : p = (N, cs) := by
        injection hp with h
        exact h.symm
      have hb := hwf.frameBottom (N, c :: cs) (by rw [hvs, hrnil]; rfl)
      rw [hpv]
      exact hb
    · rw [hgl] at hp
      exact hwf.frameBottom p
        (by rw [hvs, getLast?_cons_ne _ _ hrne]; exact hp)
  · -- emptyFrames
    intro h
    rw [hvs'] at h
    simp at h
  · -- minsUpper
    rw [hmins, hminseq, hvs']
    refine List.Forall₂.cons ?_ (List.Forall₂.cons ?_ ?_)
    · rw [hdc]
    · rw [hdall N hNc]
      exact hm1
    · refine forall₂_imp_mem hms ?_
      intro mn p _ hp hr
      have hpact : Active s p.1 := WF_frame_node_active g s hwf p
        (by rw [hvs]; exact List.mem_cons_of_mem _ hp)
      rw [hdall p.1 (hane p.1 hpact)]
      exact hr
  · -- minsLower
    intro p hp mn hmn
    rw [hvs', List.getLast?_cons_cons] at hp
    rw [hmins] at hmn
    -- identify the old bottom frame, which has the same node
    have hbotp : s.VisitStack.getLast? = some (N, c :: cs) ∧ p = (N, cs) ∨
        s.VisitStack.getLast? = some p := by
      rcases getLast?_cons_cases (N, cs) rest with ⟨hrnil, hgl⟩ | ⟨hrne, hgl⟩
      · rw [hgl] at hp
        refine Or.inl ⟨by rw [hvs, hrnil]; rfl, ?_⟩
        injection hp with h
        exact h.symm
      · rw [hgl] at hp
        exact Or.inr (by rw [hvs, getLast?_cons_ne _ _ hrne]; exact hp)
    have hpact : Active s p.1 := by
      rcases hbotp with ⟨_, hpv⟩ | hb
      · rw [hpv]
        exact hNact
      · have : p ∈ s.VisitStack := List.mem_of_mem_getLast? (by simp [hb])
        exact WF_frame_node_active g s hwf p this
    have hdp : dnum s' p.1 = dnum s p.1 := hdall p.1 (hane p.1 hpact)
    rcases List.mem_cons.mp hmn with h1 | h1
    · -- the fresh min entry visitNum + 1
      subst h1
      rw [hdp]
      have := WF_active_dnum_le g s hwf p.1 hpact
      omega
    · rw [hdp]
      rcases hbotp with ⟨hb, hpv⟩ | hb
      · rw [hpv]
        exact hwf.minsLower (N, c :: cs) hb mn h1
      · exact hwf.minsLower p hb mn h1
  · -- procTracked
    intro x hx v hv
    by_cases hxc : x = c
    · subst hxc
      rw [hprocC] at hv
      simp at hv
    · rw [htall x hxc] at hx
      by_cases hxN : x = N
      · subst hxN
        rw [hprocN'] at hv
        rcases List.mem_append.mp hv with h1 | h1
        · have hvt : Tracked s v := hwf.procTracked x hx v (by rw [hprocN]; exact h1)
          rw [htall v (htne v hvt)]
          exact hvt
        · have hvc : v = c := by simpa using h1
          subst hvc
          unfold Tracked
          rw [hfindc]
          rfl
      · rw [hprocK x hxN hxc] at hv
        have hvt : Tracked s v := hwf.procTracked x hx v hv
        rw [htall v (htne v hvt)]
        exact hvt
  · -- finalClosed
    intro x hx v hv
    rw [hfall] at hx ⊢
    exact hwf.finalClosed x hx v hv
  · -- key
    intro x hx v hv hva
    by_cases hxc : x = c
    · subst hxc
      rw [hprocC] at hv
      simp at hv
    · rw [haall x hxc] at hx
      have hdx : dnum s' x = dnum s x := hdall x hxc
      have hdxle : dnum s x ≤ s.visitNum := WF_active_dnum_le g s hwf x hx
      by_cases hxN : x = N
      · subst hxN
        rw [hprocN'] at hv
        rcases List.mem_append.mp hv with h1 | h1
        · have hvt : Tracked s v := hwf.procTracked x (active_tracked s x hx) v
            (by rw [hprocN]; exact h1)
          have hvc : v ≠ c := htne v hvt
          rw [haall v hvc] at hva
          obtain ⟨fd, mn, hsg, hdisj⟩ := hwf.key x hx v (by rw [hprocN]; exact h1) hva
          refine ⟨fd, mn, ?_, ?_⟩
          · rw [hdx, hsegT (dnum s x) hdxle]
            exact hsg
          · rw [hdall v hvc]
            exact hdisj
        · have hvc : v = c := by simpa using h1
          subst hvc
          refine ⟨dnum s x, m1, ?_, Or.inl ?_⟩
          · rw [hdx]
            unfold segFrame
            rw [hmins, hminseq, hvs', List.zip_cons_cons, List.zip_cons_cons]
            rw [segFindAux_cons_gt (dnum s') (dnum s x) _ _ _ _ (by rw [hdc]; omega)]
            rw [segFindAux_cons_le (dnum s') (dnum s x) m1 x cs _ (hdall x hxc).le]
            rw [hdall x hxc]
          · rw [hdc]
            omega
      · rw [hprocK x hxN hxc] at hv
        have hvt : Tracked s v := hwf.procTracked x (active_tracked s x hx) v hv
        have hvc : v ≠ c := htne v hvt
        rw [haall v hvc] at hva
        obtain ⟨fd, mn, hsg, hdisj⟩ := hwf.key x hx v hv hva
        refine ⟨fd, mn, ?_, ?_⟩
        · rw [hdx, hsegT (dnum s x) hdxle]
          exact hsg
        · rw [hdall v hvc]
          exact hdisj

/-- Full specification of `DFSVisitChildren`: it preserves the invariants,
returns with an exhausted top cursor (or an empty stack), finalizes nothing,
keeps every live discovery number, only adds tracked nodes, and leaves
`CurrentSCC` alone. -/
theorem DFSVisitChildren_spec (g : Graph) : ∀ (fuel : Nat) (s s1 : SccIterator),
    WF g s → DFSVisitChildren g fuel s = some s1 →
    WF g s1 ∧
      (s1.VisitStack = [] ∨ ∃ N rest, s1.VisitStack = (N, []) :: rest) ∧
      (∀ n, Finalized s1 n ↔ Finalized s n) ∧
      (∀ n d, dnumOpt s n = some d → dnumOpt s1 n = some d) ∧
      (∀ n, Tracked s n → Tracked s1 n) ∧
      s1.CurrentSCC = s.CurrentSCC ∧
      s.visitNum ≤ s1.visitNum ∧
      (s.VisitStack = [] → s1 = s) ∧
      s.VisitStack.length ≤ s1.VisitStack.length ∧
      (∀ x d, dnumOpt s1 x = some d → dnumOpt s x = some d ∨ s.visitNum < d) := by
  intro fuel
  induction fuel with
  | zero =>
    intro s s1 _ h
    simp [DFSVisitChildren] at h
  | succ fuel ih =>
    intro s s1 hwf h
    rcases hvs : s.VisitStack with _ | ⟨⟨N, cur⟩, rest⟩
    · rw [DFSVisitChildren_nil g fuel s hvs] at h
      injection h with h
      subst h
      exact ⟨hwf, Or.inl hvs, fun n => Iff.rfl, fun n d hd => hd, fun n ht => ht,
        rfl, le_refl _, fun _ => rfl, by simp [hvs], fun x d hd => Or.inl hd⟩
    · rcases cur with _ | ⟨c, cs⟩
      · rw [DFSVisitChildren_cursorNil g fuel s N rest hvs] at h
        injection h with h
        subst h
        refine ⟨hwf, Or.inr ⟨N, rest, hvs⟩, fun n => Iff.rfl, fun n d hd => hd,
          fun n ht => ht, rfl, le_refl _, fun hnil => rfl, by simp [hvs],
          fun x d hd => Or.inl hd⟩
      · have hvslen : s.VisitStack.length = rest.length + 1 := by rw [hvs]; rfl
        rcases hfind : mapFind s.nodeVisitNumbers c with _ | (_ | cn)
        · -- a freshly discovered child
          rw [DFSVisitChildren_new g fuel s N c cs rest hvs hfind] at h
          have hwfA : WF g (DFSVisitOne g c { s with VisitStack := (N, cs) :: rest }) :=
            WF_step_new g s _ N c cs rest hwf hvs rfl rfl rfl rfl rfl hfind
          obtain ⟨hwf1, hshape, hfin1, hdn1, htr1, hcur1, hvn1, _, hlen1, hJ1⟩ :=
            ih _ s1 hwfA h
          have hfinA : ∀ n,
              Finalized (DFSVisitOne g c { s with VisitStack := (N, cs) :: rest }) n ↔
                Finalized s n := by
            intro n
            show mapFind (mapInsert s.nodeVisitNumbers c (some (s.visitNum + 1))) n =
              some none ↔ _
            by_cases hnc : n = c
            · subst hnc
              rw [mapFind_mapInsert_self]
              unfold Finalized
              rw [hfind]
              simp
            · rw [mapFind_mapInsert_ne _ _ _ _ hnc]
              exact Iff.rfl
          have hdnA : ∀ n d, dnumOpt s n = some d →
              dnumOpt (DFSVisitOne g c { s with VisitStack := (N, cs) :: rest }) n =
                some d := by
            intro n d hd
            have hnc : n ≠ c := by
              intro he
              subst he
              rw [dnumOpt_eq_some_iff, hfind] at hd
              exact Option.noConfusion hd
            rw [dnumOpt_eq_some_iff] at hd ⊢
            show mapFind (mapInsert s.nodeVisitNumbers c (some (s.visitNum + 1))) n = _
            rw [mapFind_mapInsert_ne _ _ _ _ hnc]
            exact hd
          have htrA : ∀ n, Tracked s n →
              Tracked (DFSVisitOne g c { s with VisitStack := (N, cs) :: rest }) n := by
            intro n ht
            have hnc : n ≠ c := by
              intro he
              subst he
              unfold Tracked at ht
              rw [hfind] at ht
              simp at ht
            unfold Tracked at ht ⊢
            show (mapFind (mapInsert s.nodeVisitNumbers c (some (s.visitNum + 1))) n).isSome
              = true
            rw [mapFind_mapInsert_ne _ _ _ _ hnc]
            exact ht
          have hvnA : s.visitNum + 1 ≤ s1.visitNum := hvn1
          have hlenA : rest.length + 2 ≤ s1.VisitStack.length := hlen1
          refine ⟨hwf1, hshape, fun n => (hfin1 n).trans (hfinA n),
            fun n d hd => hdn1 n d (hdnA n d hd), fun n ht => htr1 n (htrA n ht),
            hcur1, by omega, fun hnil => absurd hnil (by simp),
            by simp only [List.length_cons]; omega, ?_⟩
          intro x d hd
          rcases hJ1 x d hd with hd1 | hd1
          · by_cases hxc : x = c
            · subst hxc
              have hdc2 : dnumOpt (DFSVisitOne g x { s with VisitStack := (N, cs) :: rest }) x =
                  some (s.visitNum + 1) := by
                rw [dnumOpt_eq_some_iff]
                show mapFind (mapInsert s.nodeVisitNumbers x (some (s.visitNum + 1))) x = _
                exact mapFind_mapInsert_self _ _ _
              rw [hdc2] at hd1
              injection hd1 with hd1
              omega
            · left
              rw [dnumOpt_eq_some_iff] at hd1 ⊢
              rw [show (DFSVisitOne g c { s with VisitStack := (N, cs) :: rest }).nodeVisitNumbers =
                mapInsert s.nodeVisitNumbers c (some (s.visitNum + 1)) from rfl,
                mapFind_mapInsert_ne _ _ _ _ hxc] at hd1
              exact hd1
          · right
            have : (DFSVisitOne g c { s with VisitStack := (N, cs) :: rest }).visitNum =
              s.visitNum + 1 := rfl
            omega
        · -- a finalized child: skipped
          rw [DFSVisitChildren_final g fuel s N c cs rest hvs hfind] at h
          have hwfC : WF g { s with VisitStack := (N, cs) :: rest } :=
            WF_step_final g s _ N c cs rest hwf hvs rfl rfl rfl rfl rfl hfind
          obtain ⟨hwf1, hshape, hfin1, hdn1, htr1, hcur1, hvn1, _, hlen1, hJ1⟩ :=
            ih _ s1 hwfC h
          have hlenC : rest.length + 1 ≤ s1.VisitStack.length := hlen1
          refine ⟨hwf1, hshape, fun n => hfin1 n, fun n d hd => hdn1 n d hd,
            fun n ht => htr1 n ht, hcur1, hvn1,
            fun hnil => absurd hnil (by simp), by simp only [List.length_cons]; omega,
            fun x d hd => hJ1 x d hd⟩
        · -- an active child: the top min entry is lowered
          rw [DFSVisitChildren_lower g fuel s N c cn cs rest hvs hfind] at h
          have hwfB : WF g { s with VisitStack := (N, cs) :: rest, MinVisitNumStack := lowerTopMin cn s.MinVisitNumStack } :=
            WF_step_lower g s _ N c cn cs rest hwf hvs rfl rfl rfl rfl rfl hfind
          obtain ⟨hwf1, hshape, hfin1, hdn1, htr1, hcur1, hvn1, _, hlen1, hJ1⟩ :=
            ih _ s1 hwfB h
          have hlenB : rest.length + 1 ≤ s1.VisitStack.length := hlen1
          refine ⟨hwf1, hshape, fun n => hfin1 n, fun n d hd => hdn1 n d hd,
            fun n ht => htr1 n ht, hcur1, hvn1,
            fun hnil => absurd hnil (by simp), by simp only [List.length_cons]; omega,
            fun x d hd => hJ1 x d hd⟩

/-! ### The GetNextSCC loop: unfolding equations and frame-pop lemmas -/

theorem GetNextSCCLoop_nilEq (g : Graph) (fuel : Nat) (s : SccIterator)
    (h : s.VisitStack = []) : GetNextSCCLoop g (fuel + 1) s = some s := by
  obtain ⟨v, m, st, cur, vs, mins⟩ := s
  simp only at h
  subst h
  rfl

/-- One iteration of the `GetNextSCC` while loop, in the only situation the
invariants allow: the DFS has stopped with a frame whose node is still live. -/
theorem GetNextSCCLoop_step (g : Graph) (fuel : Nat) (s s1 : SccIterator)
    (vN : Nat) (cur1 : List Nat) (restVS : List (Nat × List Nat))
    (m1 : Nat) (restMin : List Nat) (q : Nat × List Nat)
    (qrest : List (Nat × List Nat)) (d : Nat)
    (hvs : s.VisitStack = q :: qrest)
    (hdfs : DFSVisitChildren g fuel s = some s1)
    (hvs1 : s1.VisitStack = (vN, cur1) :: restVS)
    (hmins1 : s1.MinVisitNumStack = m1 :: restMin)
    (hfind2 : mapFind s1.nodeVisitNumbers vN = some (some d)) :
    GetNextSCCLoop g (fuel + 1) s =
      if m1 = d then
        some { s1 with
               VisitStack := restVS
               MinVisitNumStack := lowerTopMin m1 restMin
               CurrentSCC := (popSCCNodes vN s1.SCCNodeStack).1
               SCCNodeStack := (popSCCNodes vN s1.SCCNodeStack).2
               nodeVisitNumbers :=
                 finalizeAll (popSCCNodes vN s1.SCCNodeStack).1 s1.nodeVisitNumbers }
      else
        GetNextSCCLoop g fuel
          { s1 with VisitStack := restVS,
                    MinVisitNumStack := lowerTopMin m1 restMin } := by
  obtain ⟨v0, mp0, st0, cur0, vs0, mins0⟩ := s
  obtain ⟨v1, mp1, st1, cur2, vs1, mns1⟩ := s1
  simp only at hvs hvs1 hmins1 hfind2
  subst hvs hvs1 hmins1
  simp only [GetNextSCCLoop, hdfs, hfind2]

/-- Transfer of the innermost-enclosing-frame lookup across popping the top
frame and folding its min entry into the parent: the answer's frame is no
younger and its min entry no larger. -/
theorem segFrame_popFold (s1 s2 : SccIterator) (vN : Nat)
    (restVS : List (Nat × List Nat)) (m1 : Nat) (restMin : List Nat)
    (hvs1 : s1.VisitStack = (vN, []) :: restVS)
    (hmins1 : s1.MinVisitNumStack = m1 :: restMin)
    (hvs2 : s2.VisitStack = restVS)
    (hmins2 : s2.MinVisitNumStack = lowerTopMin m1 restMin)
    (hdn : ∀ p ∈ restVS, dnum s2 p.1 = dnum s1 p.1)
    (hdvN : ∀ p ∈ restVS, dnum s1 p.1 < dnum s1 vN)
    (hlen : restMin.length = restVS.length)
    (hrest : restVS ≠ []) (dx fd mn : Nat)
    (hsg : segFrame s1 dx = some (fd, mn)) :
    ∃ fd' mn', segFrame s2 dx = some (fd', mn') ∧ fd' ≤ fd ∧ mn' ≤ mn := by
  rcases hr : restVS with _ | ⟨⟨n2, c2⟩, restVS'⟩
  · exact absurd hr hrest
  rcases hq : restMin with _ | ⟨m2, restMin'⟩
  · rw [hq, hr] at hlen
    simp at hlen
  subst hr hq
  have hn2 : dnum s2 n2 = dnum s1 n2 := hdn (n2, c2) (List.mem_cons_self _ _)
  have hn2lt : dnum s1 n2 < dnum s1 vN := hdvN (n2, c2) (List.mem_cons_self _ _)
  have hminle2 : (if m1 < m2 then m1 else m2) ≤ m2 := by
    by_cases h : m1 < m2
    · simp [h]
      omega
    · simp [h]
  have hminle1 : (if m1 < m2 then m1 else m2) ≤ m1 := by
    by_cases h : m1 < m2
    · simp [h]
    · simp [h]
      omega
  unfold segFrame at hsg ⊢
  rw [hvs1, hmins1, List.zip_cons_cons, List.zip_cons_cons] at hsg
  rw [hvs2, hmins2]
  have hmins2' : lowerTopMin m1 (m2 :: restMin') = (if m1 < m2 then m1 else m2) :: restMin' := rfl
  rw [hmins2', List.zip_cons_cons]
  by_cases hle : dnum s1 vN ≤ dx
  · rw [segFindAux_cons_le (dnum s1) dx m1 vN [] _ hle] at hsg
    injection hsg with hsg'
    have he1 : dnum s1 vN = fd := congrArg Prod.fst hsg'
    have he2 : m1 = mn := congrArg Prod.snd hsg'
    rw [segFindAux_cons_le (dnum s2) dx _ n2 c2 _ (by rw [hn2]; omega)]
    exact ⟨dnum s2 n2, if m1 < m2 then m1 else m2, rfl, by omega, by omega⟩
  · rw [segFindAux_cons_gt (dnum s1) dx m1 vN [] _ hle] at hsg
    by_cases hle2 : dnum s1 n2 ≤ dx
    · rw [segFindAux_cons_le (dnum s1) dx m2 n2 c2 _ hle2] at hsg
      injection hsg with hsg'
      have he1 : dnum s1 n2 = fd := congrArg Prod.fst hsg'
      have he2 : m2 = mn := congrArg Prod.snd hsg'
      rw [segFindAux_cons_le (dnum s2) dx _ n2 c2 _ (by rw [hn2]; omega)]
      exact ⟨dnum s2 n2, if m1 < m2 then m1 else m2, rfl, by omega, by omega⟩
    · rw [segFindAux_cons_gt (dnum s1) dx m2 n2 c2 _ hle2] at hsg
      rw [segFindAux_cons_gt (dnum s2) dx _ n2 c2 _ (by rw [hn2]; exact hle2)]
      rw [segFindAux_eq_of (dnum s1) (dnum s2) dx (restMin'.zip restVS') (restMin'.zip restVS') ?_]
      · exact ⟨fd, mn, hsg, le_refl _, le_refl _⟩
      · refine List.forall₂_same.mpr ?_
        intro p hp
        obtain ⟨pm, pq⟩ := p
        exact ⟨rfl, hdn pq (List.mem_cons_of_mem _ (List.of_mem_zip hp).2)⟩

theorem frameCursor_eq_none (vs : List (Nat × List Nat)) (x : Nat)
    (h : ∀ p ∈ vs, p.1 ≠ x) : frameCursor vs x = none := by
  induction vs with
  | nil => rfl
  | cons p rest ih =>
    obtain ⟨n, c⟩ := p
    rw [frameCursor_cons_ne n x c rest (h (n, c) (List.mem_cons_self _ _))]
    exact ih (fun q hq => h q (List.mem_cons_of_mem _ hq))

theorem processedChildren_cursor_empty (g : Graph) (s : SccIterator) (x : Nat)
    (h : frameCursor s.VisitStack x = some []) :
    processedChildren g s x = g.children x := by
  unfold processedChildren
  rw [h]
  simp

/-- Preservation of `WF` when a frame whose node stays live is popped and its
min entry folded into the parent (the `continue` path of `GetNextSCC`). -/
theorem WF_popFold (g : Graph) (s1 s2 : SccIterator) (vN : Nat)
    (restVS : List (Nat × List Nat)) (m1 : Nat) (restMin : List Nat)
    (hwf : WF g s1)
    (hvs1 : s1.VisitStack = (vN, []) :: restVS)
    (hmins1 : s1.MinVisitNumStack = m1 :: restMin)
    (hrest : restVS ≠ [])
    (hvs2 : s2.VisitStack = restVS)
    (hm : s2.nodeVisitNumbers = s1.nodeVisitNumbers)
    (hst : s2.SCCNodeStack = s1.SCCNodeStack)
    (hvn : s2.visitNum = s1.visitNum)
    (hmins2 : s2.MinVisitNumStack = lowerTopMin m1 restMin) :
    WF g s2 := by
  have hdall : ∀ x, dnum s2 x = dnum s1 x := fun x => dnum_eq_of_map_eq s1 s2 x hm
  have haall : ∀ x, Active s2 x ↔ Active s1 x := fun x => active_iff_of_map_eq s1 s2 x hm
  have htall : ∀ x, Tracked s2 x ↔ Tracked s1 x := fun x => tracked_iff_of_map_eq s1 s2 x hm
  have hfall : ∀ x, Finalized s2 x ↔ Finalized s1 x :=
    fun x => finalized_iff_of_map_eq s1 s2 x hm
  obtain ⟨core1, core2, core3, core4, core5, core6, core7⟩ :=
    WF_core_transport g s1 s2 hm hst hvn hwf
  have hfa := hwf.minsUpper
  rw [hvs1, hmins1] at hfa
  rcases hfa with _ | ⟨hm1, hms⟩
  have hlen : restMin.length = restVS.length := hms.length_eq
  have hsorted := hwf.frameSorted
  rw [hvs1] at hsorted
  rcases List.pairwise_cons.mp hsorted with ⟨hhead, htail⟩
  have hdn : ∀ p ∈ restVS, dnum s2 p.1 = dnum s1 p.1 := fun p _ => hdall p.1
  have hvNnotin : ∀ p ∈ restVS, p.1 ≠ vN := by
    intro p hp he
    have h2 : dnum s1 p.1 < dnum s1 vN := hhead p hp
    rw [he] at h2
    omega
  have hprocEq : ∀ x, processedChildren g s2 x = processedChildren g s1 x := by
    intro x
    by_cases hxv : x = vN
    · subst hxv
      rw [processedChildren_cursor_empty g s1 x
        (by rw [hvs1]; exact frameCursor_cons_self x [] restVS)]
      rw [processedChildren_no_frame g s2 x
        (by rw [hvs2]; exact frameCursor_eq_none restVS x hvNnotin)]
    · refine processedChildren_congr g s1 s2 x ?_
      rw [hvs1, hvs2, frameCursor_cons_ne vN x _ _ (fun he => hxv he.symm)]
  refine ⟨core1, core2, core3, core4, core5, core6, core7,
    ?_, ?_, ?_, ?_, ?_, ?_, ?_, ?_, ?_, ?_⟩
  · -- frameActive
    intro p hp
    rw [hvs2] at hp
    rw [hst]
    exact hwf.frameActive p (by rw [hvs1]; exact List.mem_cons_of_mem _ hp)
  · -- frameCursorSuffix
    intro p hp
    rw [hvs2] at hp
    exact hwf.frameCursorSuffix p (by rw [hvs1]; exact List.mem_cons_of_mem _ hp)
  · -- frameSorted
    rw [hvs2]
    exact htail.imp_of_mem (fun ha hb hr => by rw [hdall, hdall]; exact hr)
  · -- frameBottom
    intro p hp
    rw [hvs2] at hp
    rw [hst]
    exact hwf.frameBottom p (by rw [hvs1, getLast?_cons_ne _ _ hrest]; exact hp)
  · -- emptyFrames
    intro h
    rw [hvs2] at h
    exact absurd h hrest
  · -- minsUpper
    rcases hr : restVS with _ | ⟨⟨n2, c2⟩, restVS'⟩
    · exact absurd hr hrest
    rcases hq : restMin with _ | ⟨m2, restMin'⟩
    · rw [hq, hr] at hlen
      simp at hlen
    rw [hmins2, hvs2, hr, hq]
    rw [hr, hq] at hms
    rcases hms with _ | ⟨hm2, hms'⟩
    have hm2' : m2 ≤ dnum s1 n2 := hm2
    refine List.Forall₂.cons ?_ ?_
    · have hc : dnum s2 n2 = dnum s1 n2 := hdall n2
      show (if m1 < m2 then m1 else m2) ≤ dnum s2 (n2, c2).1
      show (if m1 < m2 then m1 else m2) ≤ dnum s2 n2
      by_cases h : m1 < m2
      · simp only [if_pos h]
        rw [hc]
        omega
      · simp only [if_neg h]
        rw [hc]
        exact hm2'
    · refine forall₂_imp_mem hms' ?_
      intro mn p _ _ hr2
      rw [hdall]
      exact hr2
  · -- minsLower
    intro p hp mn hmn
    rw [hvs2] at hp
    rw [hmins2] at hmn
    rw [hdall]
    have hbot : s1.VisitStack.getLast? = some p := by
      rw [hvs1, getLast?_cons_ne _ _ hrest]
      exact hp
    rcases hr : restMin with _ | ⟨m2, restMin'⟩
    · rw [hr] at hmn
      simp [lowerTopMin] at hmn
    rw [hr] at hmn
    have hmemold : ∀ w, w ∈ s1.MinVisitNumStack → dnum s1 p.1 ≤ w := by
      intro w hw
      exact hwf.minsLower p hbot w hw
    rcases List.mem_cons.mp hmn with h1 | h1
    · subst h1
      have h2 : m1 ∈ s1.MinVisitNumStack := by rw [hmins1]; simp
      have h3 : m2 ∈ s1.MinVisitNumStack := by rw [hmins1, hr]; simp
      have := hmemold m1 h2
      have := hmemold m2 h3
      by_cases h : m1 < m2
      · simp only [if_pos h]
        omega
      · simp only [if_neg h]
        omega
    · exact hmemold mn (by rw [hmins1, hr]; simp [h1])
  · -- procTracked
    intro x hx v hv
    rw [htall] at hx ⊢
    rw [hprocEq] at hv
    exact hwf.procTracked x hx v hv
  · -- finalClosed
    intro x hx v hv
    rw [hfall] at hx ⊢
    exact hwf.finalClosed x hx v hv
  · -- key
    intro x hx v hv hva
    rw [haall] at hx hva
    rw [hprocEq] at hv
    simp only [hdall]
    obtain ⟨fd, mn, hsg, hdisj⟩ := hwf.key x hx v hv hva
    obtain ⟨fd', mn', hsg', hfd, hmn⟩ := segFrame_popFold s1 s2 vN restVS m1 restMin
      hvs1 hmins1 hvs2 hmins2 hdn (fun p hp => hhead p hp) hlen hrest
      (dnum s1 x) fd mn hsg
    refine ⟨fd', mn', hsg', ?_⟩
    rcases hdisj with h | h
    · exact Or.inl (le_trans hfd h)
    · exact Or.inr (le_trans hmn h)

/-- The emission step: when the popped frame's min entry equals its node's
discovery number, the nodes above (and including) it on `SCCNodeStack` form
the new current SCC and are finalized.  This preserves `WF`, produces a
nonempty duplicate-free SCC of previously unfinalized nodes, and empties the
pending stack exactly when the frame stack empties. -/
theorem WF_emit (g : Graph) (s1 s' : SccIterator) (vN : Nat)
    (restVS : List (Nat × List Nat)) (m1 : Nat) (restMin : List Nat)
    (hwf : WF g s1)
    (hvs1 : s1.VisitStack = (vN, []) :: restVS)
    (hmins1 : s1.MinVisitNumStack = m1 :: restMin)
    (heq : m1 = dnum s1 vN)
    (hvs' : s'.VisitStack = restVS)
    (hmins' : s'.MinVisitNumStack = lowerTopMin m1 restMin)
    (hcur' : s'.CurrentSCC = (popSCCNodes vN s1.SCCNodeStack).1)
    (hst' : s'.SCCNodeStack = (popSCCNodes vN s1.SCCNodeStack).2)
    (hm' : s'.nodeVisitNumbers =
      finalizeAll (popSCCNodes vN s1.SCCNodeStack).1 s1.nodeVisitNumbers)
    (hvn' : s'.visitNum = s1.visitNum) :
    WF g s' ∧ s'.CurrentSCC ≠ [] ∧ s'.CurrentSCC.Nodup ∧
      (∀ n, Finalized s' n ↔ (Finalized s1 n ∨ n ∈ s'.CurrentSCC)) ∧
      (∀ n ∈ s'.CurrentSCC, ¬ Finalized s1 n) ∧
      (∀ n, Tracked s1 n ↔ Tracked s' n) ∧
      (s'.VisitStack = [] → s'.SCCNodeStack = []) ∧
      (∀ n, n ∉ s'.CurrentSCC → dnumOpt s' n = dnumOpt s1 n) := by
  have hvNact : Active s1 vN :=
    WF_frame_node_active g s1 hwf (vN, []) (by rw [hvs1]; exact List.mem_cons_self _ _)
  have hvNstk : vN ∈ s1.SCCNodeStack := (hwf.activeMem vN).mp hvNact
  have hsplit : s1.SCCNodeStack =
      (popSCCNodes vN s1.SCCNodeStack).1 ++ (popSCCNodes vN s1.SCCNodeStack).2 :=
    popSCCNodes_append vN s1.SCCNodeStack
  have hElast : (popSCCNodes vN s1.SCCNodeStack).1.getLast? = some vN :=
    popSCCNodes_fst_getLast vN s1.SCCNodeStack hvNstk
  have hEne : (popSCCNodes vN s1.SCCNodeStack).1 ≠ [] :=
    popSCCNodes_fst_ne_nil vN s1.SCCNodeStack hvNstk
  have hvNE : vN ∈ (popSCCNodes vN s1.SCCNodeStack).1 :=
    mem_popSCCNodes_fst vN s1.SCCNodeStack hvNstk
  have hnd := hwf.sccNodup
  rw [hsplit] at hnd
  obtain ⟨hndE, hndR, hdisj⟩ := List.nodup_append.mp hnd
  have hsort := hwf.sccSorted
  rw [hsplit] at hsort
  obtain ⟨hsE, hsR, hcross⟩ := List.pairwise_append.mp hsort
  have hEge : ∀ x ∈ (popSCCNodes vN s1.SCCNodeStack).1,
      dnum s1 vN ≤ dnum s1 x :=
    pairwise_getLast_le (dnum s1) _ vN hsE hElast
  have hRlt : ∀ y ∈ (popSCCNodes vN s1.SCCNodeStack).2,
      dnum s1 y < dnum s1 vN := fun y hy => hcross vN hvNE y hy
  have hEact : ∀ n ∈ (popSCCNodes vN s1.SCCNodeStack).1, Active s1 n := by
    intro n hn
    refine (hwf.activeMem n).mpr ?_
    rw [hsplit]
    exact List.mem_append.mpr (Or.inl hn)
  have hRact : ∀ n ∈ (popSCCNodes vN s1.SCCNodeStack).2, Active s1 n := by
    intro n hn
    refine (hwf.activeMem n).mpr ?_
    rw [hsplit]
    exact List.mem_append.mpr (Or.inr hn)
  have hRnotE : ∀ n ∈ (popSCCNodes vN s1.SCCNodeStack).2,
      n ∉ (popSCCNodes vN s1.SCCNodeStack).1 := by
    intro n hn hne
    exact hdisj hne hn
  -- pointwise record facts after finalization
  have hfindE : ∀ n ∈ (popSCCNodes vN s1.SCCNodeStack).1,
      mapFind s'.nodeVisitNumbers n = some none := by
    intro n hn
    rw [hm']
    exact mapFind_finalizeAll_mem _ _ n hn
  have hfindK : ∀ n, n ∉ (popSCCNodes vN s1.SCCNodeStack).1 →
      mapFind s'.nodeVisitNumbers n = mapFind s1.nodeVisitNumbers n := by
    intro n hn
    rw [hm']
    exact mapFind_finalizeAll_notmem _ _ n hn
  have hfin' : ∀ n, Finalized s' n ↔
      (Finalized s1 n ∨ n ∈ (popSCCNodes vN s1.SCCNodeStack).1) := by
    intro n
    by_cases hn : n ∈ (popSCCNodes vN s1.SCCNodeStack).1
    · unfold Finalized
      rw [hfindE n hn]
      simp [hn]
    · unfold Finalized
      rw [hfindK n hn]
      simp [hn]
  have htr' : ∀ n, Tracked s' n ↔ Tracked s1 n := by
    intro n
    rw [tracked_finalizeAll s1 s' _ n hm']
    constructor
    · intro h
      rcases h with h | h
      · exact active_tracked s1 n (hEact n h)
      · exact h
    · exact fun h => Or.inr h
  have hdnK : ∀ n, n ∉ (popSCCNodes vN s1.SCCNodeStack).1 →
      dnumOpt s' n = dnumOpt s1 n := by
    intro n hn
    unfold dnumOpt
    rw [hfindK n hn]
  have hact' : ∀ n, Active s' n ↔
      (Active s1 n ∧ n ∉ (popSCCNodes vN s1.SCCNodeStack).1) := by
    intro n
    by_cases hn : n ∈ (popSCCNodes vN s1.SCCNodeStack).1
    · constructor
      · intro h
        exfalso
        unfold Active dnumOpt at h
        rw [hfindE n hn] at h
        simp at h
      · intro h
        exact absurd hn h.2
    · unfold Active
      rw [hdnK n hn]
      simp [hn]
  have hdnR : ∀ n, n ∉ (popSCCNodes vN s1.SCCNodeStack).1 →
      dnum s' n = dnum s1 n := by
    intro n hn
    unfold dnum
    rw [hdnK n hn]
  have hactR : ∀ n, Active s' n ↔ n ∈ (popSCCNodes vN s1.SCCNodeStack).2 := by
    intro n
    rw [hact' n]
    constructor
    · intro ⟨h1, h2⟩
      have : n ∈ s1.SCCNodeStack := (hwf.activeMem n).mp h1
      rw [hsplit] at this
      rcases List.mem_append.mp this with h | h
      · exact absurd h h2
      · exact h
    · intro h
      exact ⟨hRact n h, hRnotE n h⟩
  -- the frames of the remaining stack sit strictly below the popped root
  have hsortedF := hwf.frameSorted
  rw [hvs1] at hsortedF
  rcases List.pairwise_cons.mp hsortedF with ⟨hheadF, htailF⟩
  have hframeR : ∀ p ∈ restVS, p.1 ∈ (popSCCNodes vN s1.SCCNodeStack).2 := by
    intro p hp
    have hlt : dnum s1 p.1 < dnum s1 vN := hheadF p hp
    have hpact : Active s1 p.1 := WF_frame_node_active g s1 hwf p
      (by rw [hvs1]; exact List.mem_cons_of_mem _ hp)
    have hmem : p.1 ∈ s1.SCCNodeStack := (hwf.activeMem p.1).mp hpact
    rw [hsplit] at hmem
    rcases List.mem_append.mp hmem with h | h
    · exfalso
      have := hEge p.1 h
      omega
    · exact h
  have hframeNotE : ∀ p ∈ restVS, p.1 ∉ (popSCCNodes vN s1.SCCNodeStack).1 :=
    fun p hp => hRnotE p.1 (hframeR p hp)
  have hvNnotin : ∀ p ∈ restVS, p.1 ≠ vN := by
    intro p hp he
    have h2 : dnum s1 p.1 < dnum s1 vN := hheadF p hp
    rw [he] at h2
    omega
  have hprocEq : ∀ x, processedChildren g s' x = processedChildren g s1 x := by
    intro x
    by_cases hxv : x = vN
    · subst hxv
      rw [processedChildren_cursor_empty g s1 x
        (by rw [hvs1]; exact frameCursor_cons_self x [] restVS)]
      rw [processedChildren_no_frame g s' x
        (by rw [hvs']; exact frameCursor_eq_none restVS x hvNnotin)]
    · refine processedChildren_congr g s1 s' x ?_
      rw [hvs1, hvs', frameCursor_cons_ne vN x _ _ (fun he => hxv he.symm)]
  have hprocAll : ∀ x ∈ (popSCCNodes vN s1.SCCNodeStack).1,
      processedChildren g s1 x = g.children x := by
    intro x hx
    by_cases hxv : x = vN
    · subst hxv
      exact processedChildren_cursor_empty g s1 x
        (by rw [hvs1]; exact frameCursor_cons_self x [] restVS)
    · refine processedChildren_no_frame g s1 x ?_
      rw [hvs1, frameCursor_cons_ne vN x _ _ (fun he => hxv he.symm)]
      refine frameCursor_eq_none restVS x ?_
      intro p hp he
      exact hframeNotE p hp (he ▸ hx)
  -- every edge out of the emitted set lands in it or in older SCCs
  have hcover : ∀ x ∈ (popSCCNodes vN s1.SCCNodeStack).1, ∀ v ∈ g.children x,
      Finalized s1 v ∨ v ∈ (popSCCNodes vN s1.SCCNodeStack).1 := by
    intro x hx v hv
    have hxact : Active s1 x := hEact x hx
    have hvproc : v ∈ processedChildren g s1 x := by rw [hprocAll x hx]; exact hv
    have hvtr : Tracked s1 v := hwf.procTracked x (active_tracked s1 x hxact) v hvproc
    rcases tracked_cases s1 v hvtr with hva | hvf
    · right
      obtain ⟨fd, mn, hsg, hdisj⟩ := hwf.key x hxact v hvproc hva
      have hsgc : segFrame s1 (dnum s1 x) = some (dnum s1 vN, m1) := by
        unfold segFrame
        rw [hmins1, hvs1, List.zip_cons_cons]
        exact segFindAux_cons_le (dnum s1) _ m1 vN [] _ (hEge x hx)
      rw [hsgc] at hsg
      injection hsg with hsg'
      have he1 : dnum s1 vN = fd := congrArg Prod.fst hsg'
      have he2 : m1 = mn := congrArg Prod.snd hsg'
      have hvge : dnum s1 vN ≤ dnum s1 v := by
        rcases hdisj with h | h
        · omega
        · rw [← he2, heq] at h
          exact h
      have hvmem : v ∈ s1.SCCNodeStack := (hwf.activeMem v).mp hva
      rw [hsplit] at hvmem
      rcases List.mem_append.mp hvmem with h | h
      · exact h
      · exfalso
        have := hRlt v h
        omega
    · exact Or.inl hvf
  have hfa := hwf.minsUpper
  rw [hvs1, hmins1] at hfa
  rcases hfa with _ | ⟨hm10, hms⟩
  have hlen : restMin.length = restVS.length := hms.length_eq
  have hwf' : WF g s' := by
    refine ⟨?_, ?_, ?_, ?_, ?_, ?_, ?_, ?_, ?_, ?_, ?_, ?_, ?_, ?_, ?_, ?_, ?_⟩
    · rw [hm']
      exact nodup_mapKeys_finalizeAll _ _ hwf.keysNodup
    · rw [show Tracked s' g.entry ↔ Tracked s1 g.entry from htr' g.entry]
      exact hwf.entryTracked
    · intro n hn
      exact hwf.reach n ((htr' n).mp hn)
    · intro n d hd
      have hna : Active s' n := active_of_dnumOpt s' n d hd
      have hnE : n ∉ (popSCCNodes vN s1.SCCNodeStack).1 := ((hact' n).mp hna).2
      rw [hdnK n hnE] at hd
      rw [hvn']
      exact hwf.numPos n d hd
    · rw [hst']
      exact hndR
    · intro n
      rw [hst']
      exact hactR n
    · rw [hst']
      refine hsR.imp_of_mem (fun ha hb hr => ?_)
      rw [hdnR _ (hRnotE _ ha), hdnR _ (hRnotE _ hb)]
      exact hr
    · -- frameActive
      intro p hp
      rw [hvs'] at hp
      rw [hst']
      exact hframeR p hp
    · -- frameCursorSuffix
      intro p hp
      rw [hvs'] at hp
      exact hwf.frameCursorSuffix p (by rw [hvs1]; exact List.mem_cons_of_mem _ hp)
    · -- frameSorted
      rw [hvs']
      refine htailF.imp_of_mem (fun ha hb hr => ?_)
      rw [hdnR _ (hframeNotE _ ha), hdnR _ (hframeNotE _ hb)]
      exact hr
    · -- frameBottom
      intro p hp
      rw [hvs'] at hp
      rw [hst']
      have hrne : restVS ≠ [] := by
        intro h
        rw [h] at hp
        simp at hp
      have hbold := hwf.frameBottom p
        (by rw [hvs1, getLast?_cons_ne _ _ hrne]; exact hp)
      rw [hsplit] at hbold
      have hpR : p.1 ∈ (popSCCNodes vN s1.SCCNodeStack).2 :=
        hframeR p (List.mem_of_mem_getLast? (by simp [hp]))
      have hRne : (popSCCNodes vN s1.SCCNodeStack).2 ≠ [] := by
        intro h
        rw [h] at hpR
        simp at hpR
      rw [List.getLast?_append_of_ne_nil _ hRne] at hbold
      exact hbold
    · -- emptyFrames
      intro h
      rw [hvs'] at h
      subst h
      have hbb := hwf.frameBottom (vN, []) (by rw [hvs1]; rfl)
      have := popSCCNodes_whole vN s1.SCCNodeStack hwf.sccNodup hbb
      rw [hst', this]
    · -- minsUpper
      rcases hr : restVS with _ | ⟨⟨n2, c2⟩, restVS'⟩
      · rw [hr] at hlen
        rcases hq : restMin with _ | ⟨m2, restMin'⟩
        · rw [hmins', hvs', hq, hr]
          exact List.Forall₂.nil
        · rw [hq] at hlen
          simp at hlen
      rcases hq : restMin with _ | ⟨m2, restMin'⟩
      · rw [hq, hr] at hlen
        simp at hlen
      rw [hmins', hvs', hr, hq]
      rw [hr, hq] at hms
      rcases hms with _ | ⟨hm2, hms'⟩
      have hm2' : m2 ≤ dnum s1 n2 := hm2
      have hn2R : n2 ∈ (popSCCNodes vN s1.SCCNodeStack).2 :=
        hframeR (n2, c2) (by rw [hr]; exact List.mem_cons_self _ _)
      refine List.Forall₂.cons ?_ ?_
      · show (if m1 < m2 then m1 else m2) ≤ dnum s' (n2, c2).1
        show (if m1 < m2 then m1 else m2) ≤ dnum s' n2
        rw [hdnR n2 (hRnotE n2 hn2R)]
        by_cases h : m1 < m2
        · simp only [if_pos h]
          omega
        · simp only [if_neg h]
          exact hm2'
      · refine forall₂_imp_mem hms' ?_
        intro mn p _ hp hr2
        have hpR : p.1 ∈ (popSCCNodes vN s1.SCCNodeStack).2 :=
          hframeR p (by rw [hr]; exact List.mem_cons_of_mem _ hp)
        rw [hdnR p.1 (hRnotE p.1 hpR)]
        exact hr2
    · -- minsLower
      intro p hp mn hmn
      rw [hvs'] at hp
      rw [hmins'] at hmn
      have hrne : restVS ≠ [] := by
        intro h
        rw [h] at hp
        simp at hp
      have hpR : p.1 ∈ (popSCCNodes vN s1.SCCNodeStack).2 :=
        hframeR p (List.mem_of_mem_getLast? (by simp [hp]))
      rw [hdnR p.1 (hRnotE p.1 hpR)]
      have hbot : s1.VisitStack.getLast? = some p := by
        rw [hvs1, getLast?_cons_ne _ _ hrne]
        exact hp
      have hmemold : ∀ w, w ∈ s1.MinVisitNumStack → dnum s1 p.1 ≤ w :=
        fun w hw => hwf.minsLower p hbot w hw
      rcases hr : restMin with _ | ⟨m2, restMin'⟩
      · rw [hr] at hmn
        simp [lowerTopMin] at hmn
      rw [hr] at hmn
      rcases List.mem_cons.mp hmn with h1 | h1
      · subst h1
        have h2 := hmemold m1 (by rw [hmins1]; simp)
        have h3 := hmemold m2 (by rw [hmins1, hr]; simp)
        by_cases h : m1 < m2
        · simp only [if_pos h]
          omega
        · simp only [if_neg h]
          omega
      · exact hmemold mn (by rw [hmins1, hr]; simp [h1])
    · -- procTracked
      intro x hx v hv
      rw [htr'] at hx ⊢
      rw [hprocEq] at hv
      exact hwf.procTracked x hx v hv
    · -- finalClosed
      intro x hx v hv
      rw [hfin'] at hx ⊢
      rcases hx with hx | hx
      · exact Or.inl (hwf.finalClosed x hx v hv)
      · rcases hcover x hx v hv with h | h
        · exact Or.inl h
        · exact Or.inr h
    · -- key
      intro x hx v hv hva
      have hxR : x ∈ (popSCCNodes vN s1.SCCNodeStack).2 := (hactR x).mp hx
      have hxa1 : Active s1 x := ((hact' x).mp hx).1
      have hva1 : Active s1 v := ((hact' v).mp hva).1
      rw [hprocEq] at hv
      have hrne : restVS ≠ [] := by
        intro h
        have := hwf.emptyFrames  -- unused; derive emptiness directly
        have hbb := hwf.frameBottom (vN, []) (by rw [hvs1, h]; rfl)
        have hwhole := popSCCNodes_whole vN s1.SCCNodeStack hwf.sccNodup hbb
        rw [hwhole] at hxR
        simp at hxR
      obtain ⟨fd, mn, hsg, hdisj⟩ := hwf.key x hxa1 v hv hva1
      have hdn2 : ∀ p ∈ restVS, dnum s' p.1 = dnum s1 p.1 :=
        fun p hp => hdnR p.1 (hframeNotE p hp)
      obtain ⟨fd', mn', hsg', hfd, hmn⟩ := segFrame_popFold s1 s' vN restVS m1 restMin
        hvs1 hmins1 hvs' hmins' hdn2 (fun p hp => hheadF p hp) hlen hrne
        (dnum s1 x) fd mn hsg
      rw [hdnR x (hRnotE x hxR), hdnR v (hRnotE v ((hactR v).mp hva))]
      refine ⟨fd', mn', hsg', ?_⟩
      rcases hdisj with h | h
      · exact Or.inl (le_trans hfd h)
      · exact Or.inr (le_trans hmn h)
  refine ⟨hwf', ?_, ?_, ?_, ?_, fun n => (htr' n).symm, hwf'.emptyFrames, ?_⟩
  · rw [hcur']
    exact hEne
  · rw [hcur']
    exact hndE
  · intro n
    rw [hcur']
    exact hfin' n
  · intro n hn
    rw [hcur'] at hn
    exact active_not_finalized s1 n (hEact n hn)
  · intro n hn
    rw [hcur'] at hn
    exact hdnK n hn

theorem GetNextSCCLoop_dfsNone (g : Graph) (fuel : Nat) (s : SccIterator)
    (q : Nat × List Nat) (qrest : List (Nat × List Nat))
    (hvs : s.VisitStack = q :: qrest)
    (hdfs : DFSVisitChildren g fuel s = none) :
    GetNextSCCLoop g (fuel + 1) s = none := by
  obtain ⟨v0, mp0, st0, cur0, vs0, mins0⟩ := s
  simp only at hvs
  subst hvs
  simp [GetNextSCCLoop, hdfs]

/-- Specification of the `GetNextSCC` while loop started on a state with an
empty current SCC: either the frame stack was already empty and nothing
changes, or a nonempty, duplicate-free SCC of previously unfinalized nodes is
emitted and finalized. -/
theorem GetNextSCCLoop_spec (g : Graph) : ∀ (fuel : Nat) (s s' : SccIterator),
    WF g s → s.CurrentSCC = [] →
    GetNextSCCLoop g fuel s = some s' →
    WF g s' ∧
      (∀ x d, dnumOpt s x = some d → dnumOpt s' x = some d ∨ Finalized s' x) ∧
      (∀ x d, dnumOpt s' x = some d → dnumOpt s x = some d ∨ s.visitNum < d) ∧
      ((s' = s ∧ s.VisitStack = []) ∨
        (s'.CurrentSCC ≠ [] ∧ s'.CurrentSCC.Nodup ∧
          (∀ n, Finalized s' n ↔ (Finalized s n ∨ n ∈ s'.CurrentSCC)) ∧
          (∀ n ∈ s'.CurrentSCC, ¬ Finalized s n) ∧
          (∀ n, Tracked s n → Tracked s' n) ∧
          (s'.VisitStack = [] → s'.SCCNodeStack = []))) := by
  intro fuel
  induction fuel with
  | zero =>
    intro s s' _ _ h
    simp [GetNextSCCLoop] at h
  | succ fuel ih =>
    intro s s' hwf hcur h
    rcases hvs : s.VisitStack with _ | ⟨q, qrest⟩
    · rw [GetNextSCCLoop_nilEq g fuel s hvs] at h
      injection h with h
      subst h
      exact ⟨hwf, fun x d hd => Or.inl hd, fun x d hd => Or.inl hd,
        Or.inl ⟨rfl, by simp [hvs]⟩⟩
    · rcases hdfs : DFSVisitChildren g fuel s with _ | s1
      · rw [GetNextSCCLoop_dfsNone g fuel s q qrest hvs hdfs] at h
        exact Option.noConfusion h
      · obtain ⟨hwf1, hshape, hfin1, hdn1, htr1, hcur1, hvn1, hnil1, hlen1, hJ1⟩ :=
          DFSVisitChildren_spec g fuel s s1 hwf hdfs
        have hvs1ne : s1.VisitStack ≠ [] := by
          intro hn
          rw [hvs, hn] at hlen1
          simp at hlen1
        rcases hshape with hsh | ⟨vN, restVS, hvs1⟩
        · exact absurd hsh hvs1ne
        rcases hmins1 : s1.MinVisitNumStack with _ | ⟨m1, restMin⟩
        · exfalso
          have := hwf1.minsUpper.length_eq
          rw [hvs1, hmins1] at this
          simp at this
        have hvNact : Active s1 vN := WF_frame_node_active g s1 hwf1 (vN, [])
          (by rw [hvs1]; exact List.mem_cons_self _ _)
        have hfind2 : mapFind s1.nodeVisitNumbers vN = some (some (dnum s1 vN)) :=
          active_mapFind s1 vN hvNact
        rw [GetNextSCCLoop_step g fuel s s1 vN [] restVS m1 restMin q qrest
          (dnum s1 vN) hvs hdfs hvs1 hmins1 hfind2] at h
        have hcur2 : s1.CurrentSCC = [] := by rw [hcur1, hcur]
        have hfin2 : ∀ n, Finalized s1 n ↔ Finalized s n := hfin1
        by_cases hmeq : m1 = dnum s1 vN
        · -- emission
          rw [if_pos hmeq] at h
          injection h with h
          obtain ⟨hwfE, hEne, hEnd, hEfin, hEnf, hEtr, hEempty, hEdn⟩ :=
            WF_emit g s1 { s1 with VisitStack := restVS, MinVisitNumStack := lowerTopMin m1 restMin, CurrentSCC := (popSCCNodes vN s1.SCCNodeStack).1, SCCNodeStack := (popSCCNodes vN s1.SCCNodeStack).2, nodeVisitNumbers := finalizeAll (popSCCNodes vN s1.SCCNodeStack).1 s1.nodeVisitNumbers } vN restVS m1 restMin hwf1 hvs1 hmins1 hmeq rfl rfl rfl rfl rfl rfl
          subst h
          refine ⟨hwfE, ?_, ?_, Or.inr ⟨hEne, hEnd, ?_, ?_, ?_, hEempty⟩⟩
          · intro x d hd
            have hd1 := hdn1 x d hd
            by_cases hx : x ∈ (popSCCNodes vN s1.SCCNodeStack).1
            · exact Or.inr ((hEfin x).mpr (Or.inr hx))
            · left
              rw [hEdn x hx]
              exact hd1
          · intro x d hd
            by_cases hx : x ∈ (popSCCNodes vN s1.SCCNodeStack).1
            · exfalso
              have hfx := (hEfin x).mpr (Or.inr hx)
              rw [finalized_dnumOpt_none _ x hfx] at hd
              exact Option.noConfusion hd
            · rw [hEdn x hx] at hd
              exact hJ1 x d hd
          · intro n
            rw [hEfin n, hfin2 n]
          · intro n hn
            rw [← hfin2 n]
            exact hEnf n hn
          · intro n hn
            exact (hEtr n).mp (htr1 n hn)
        · -- the node stays live: pop, fold and continue
          rw [if_neg hmeq] at h
          have hrest : restVS ≠ [] := by
            intro hr
            -- with a single frame the min entry is squeezed to the root's number
            rw [hr] at hvs1
            have hfa1 := hwf1.minsUpper
            rw [hvs1, hmins1] at hfa1
            rcases hfa1 with _ | ⟨hm10, hfatail⟩
            have hm1le : m1 ≤ dnum s1 vN := hm10
            have hlow : dnum s1 (vN, ([] : List Nat)).1 ≤ m1 :=
              hwf1.minsLower (vN, []) (by rw [hvs1]; rfl) m1 (by rw [hmins1]; simp)
            have hlow' : dnum s1 vN ≤ m1 := hlow
            omega
          have hwf2 : WF g { s1 with VisitStack := restVS, MinVisitNumStack := lowerTopMin m1 restMin } :=
            WF_popFold g s1 _ vN restVS m1 restMin hwf1 hvs1 hmins1 hrest
              rfl rfl rfl rfl rfl
          obtain ⟨hwf', hK1, hK2, hdi⟩ := ih _ s' hwf2 hcur2 h
          refine ⟨hwf', ?_, ?_, ?_⟩
          · intro x d hd
            have hd2 : dnumOpt { s1 with VisitStack := restVS, MinVisitNumStack := lowerTopMin m1 restMin } x = some d := hdn1 x d hd
            exact hK1 x d hd2
          · intro x d hd
            rcases hK2 x d hd with hd2 | hd2
            · have hd3 : dnumOpt s1 x = some d := hd2
              exact hJ1 x d hd3
            · right
              have hd3 : s1.visitNum < d := hd2
              omega
          rcases hdi with ⟨heq', hnil'⟩ | ⟨h1, h2, h3, h4, h5, h6⟩
          · exfalso
            exact hrest hnil'
          · refine Or.inr ⟨h1, h2, ?_, ?_, ?_, h6⟩
            · intro n
              rw [h3 n]
              exact or_congr (hfin2 n) Iff.rfl
            · intro n hn
              have h4' : ¬ Finalized s1 n := h4 n hn
              exact fun hf => h4' ((hfin2 n).mpr hf)
            · intro n hn
              exact h5 n (htr1 n hn)

theorem WF_clearCur (g : Graph) (s : SccIterator) (hwf : WF g s) :
    WF g { s with CurrentSCC := [] } := by
  obtain ⟨v, m, st, cur, vs, mins⟩ := s
  exact ⟨hwf.keysNodup, hwf.entryTracked, hwf.reach, hwf.numPos, hwf.sccNodup,
    hwf.activeMem, hwf.sccSorted, hwf.frameActive, hwf.frameCursorSuffix,
    hwf.frameSorted, hwf.frameBottom, hwf.emptyFrames, hwf.minsUpper,
    hwf.minsLower, hwf.procTracked, hwf.finalClosed, hwf.key⟩

/-- Specification of one `operator++` (`GetNextSCC`): either the traversal was
already complete (only `CurrentSCC` is cleared), or a fresh SCC is emitted. -/
theorem GetNextSCC_spec (g : Graph) (fuel : Nat) (s s' : SccIterator)
    (hwf : WF g s) (h : GetNextSCC g fuel s = some s') :
    WF g s' ∧
      (∀ x d, dnumOpt s x = some d → dnumOpt s' x = some d ∨ Finalized s' x) ∧
      (∀ x d, dnumOpt s' x = some d → dnumOpt s x = some d ∨ s.visitNum < d) ∧
      ((s' = { s with CurrentSCC := [] } ∧ s.VisitStack = []) ∨
        (s'.CurrentSCC ≠ [] ∧ s'.CurrentSCC.Nodup ∧
          (∀ n, Finalized s' n ↔ (Finalized s n ∨ n ∈ s'.CurrentSCC)) ∧
          (∀ n ∈ s'.CurrentSCC, ¬ Finalized s n) ∧
          (∀ n, Tracked s n → Tracked s' n) ∧
          (s'.VisitStack = [] → s'.SCCNodeStack = []))) := by
  unfold GetNextSCC at h
  obtain ⟨hwf', hK1, hK2, hdi⟩ :=
    GetNextSCCLoop_spec g fuel { s with CurrentSCC := [] } s'
      (WF_clearCur g s hwf) rfl h
  refine ⟨hwf', hK1, hK2, ?_⟩
  rcases hdi with ⟨he, hnil⟩ | ⟨h1, h2, h3, h4, h5, h6⟩
  · exact Or.inl ⟨he, hnil⟩
  · exact Or.inr ⟨h1, h2, h3, h4, h5, h6⟩

/-- `operator++` preserves the caller-visible invariants. -/
theorem IterWF_advance (g : Graph) (fuel : Nat) (s s' : SccIterator)
    (hiw : IterWF g s) (h : GetNextSCC g fuel s = some s') : IterWF g s' := by
  obtain ⟨hwf', hK1, hK2, hdi⟩ := GetNextSCC_spec g fuel s s' hiw.wf h
  rcases hdi with ⟨he, hnil⟩ | ⟨h1, h2, h3, h4, h5, h6⟩
  · subst he
    exact ⟨hwf', fun n hn => absurd hn (by simp), List.nodup_nil, fun _ => hnil⟩
  · refine ⟨hwf', ?_, h2, fun hc => absurd hc h1⟩
    intro n hn
    exact (h3 n).mpr (Or.inr hn)

/-- Well-formedness of the state right after the constructor's
`DFSVisitOne(entryN)` call. -/
theorem WF_begin_base (g : Graph) : WF g (DFSVisitOne g g.entry initIterator) := by
  have hfind : ∀ n, mapFind [(g.entry, (some 1 : VisitRec))] n =
      if g.entry = n then some (some 1) else none := by
    intro n
    rfl
  have hda : ∀ n, dnumOpt (DFSVisitOne g g.entry initIterator) n =
      if g.entry = n then some 1 else none := by
    intro n
    show (match mapFind [(g.entry, (some 1 : VisitRec))] n with
      | some (some d) => some d | _ => none) = _
    rw [hfind n]
    by_cases h : g.entry = n
    · simp [h]
    · simp [h]
  have htr : ∀ n, Tracked (DFSVisitOne g g.entry initIterator) n ↔ n = g.entry := by
    intro n
    show (mapFind [(g.entry, (some 1 : VisitRec))] n).isSome = true ↔ _
    rw [hfind n]
    by_cases h : g.entry = n
    · subst h
      simp
    · simp [h]
      exact fun he => h he.symm
  have hact : ∀ n, Active (DFSVisitOne g g.entry initIterator) n ↔ n = g.entry := by
    intro n
    unfold Active
    rw [hda n]
    by_cases h : g.entry = n
    · subst h
      simp
    · simp [h]
      exact fun he => h he.symm
  have hde : dnum (DFSVisitOne g g.entry initIterator) g.entry = 1 := by
    unfold dnum
    rw [hda g.entry]
    simp
  have hnf : ∀ n, ¬ Finalized (DFSVisitOne g g.entry initIterator) n := by
    intro n hf
    have hf' : mapFind [(g.entry, (some 1 : VisitRec))] n = some none := hf
    rw [hfind n] at hf'
    by_cases h : g.entry = n
    · rw [if_pos h] at hf'
      injection hf' with hf'
      exact Option.noConfusion hf'
    · rw [if_neg h] at hf'
      exact Option.noConfusion hf'
  have hproc : processedChildren g (DFSVisitOne g g.entry initIterator) g.entry = [] := by
    unfold processedChildren
    rw [show frameCursor (DFSVisitOne g g.entry initIterator).VisitStack g.entry =
      some (g.children g.entry) from frameCursor_cons_self _ _ _]
    simp
  refine ⟨?_, ?_, ?_, ?_, ?_, ?_, ?_, ?_, ?_, ?_, ?_, ?_, ?_, ?_, ?_, ?_, ?_⟩
  · show ([g.entry] : List Nat).Nodup
    simp
  · exact (htr g.entry).mpr rfl
  · intro n hn
    rw [htr n] at hn
    subst hn
    exact reaches_refl g _
  · intro n d hd
    rw [hda n] at hd
    by_cases h : g.entry = n
    · rw [if_pos h] at hd
      injection hd with hd
      subst hd
      exact ⟨le_refl 1, le_refl 1⟩
    · rw [if_neg h] at hd
      exact Option.noConfusion hd
  · show ([g.entry] : List Nat).Nodup
    simp
  · intro n
    rw [hact n]
    show n = g.entry ↔ n ∈ ([g.entry] : List Nat)
    simp
  · show ([g.entry] : List Nat).Pairwise _
    simp
  · intro p hp
    have hp' : p ∈ ([(g.entry, g.children g.entry)] : List (Nat × List Nat)) := hp
    have hpv : p = (g.entry, g.children g.entry) := List.mem_singleton.mp hp'
    subst hpv
    show g.entry ∈ ([g.entry] : List Nat)
    simp
  · intro p hp
    have hp' : p ∈ ([(g.entry, g.children g.entry)] : List (Nat × List Nat)) := hp
    have hpv : p = (g.entry, g.children g.entry) := List.mem_singleton.mp hp'
    subst hpv
    exact ⟨[], rfl⟩
  · show ([(g.entry, g.children g.entry)] : List (Nat × List Nat)).Pairwise _
    simp
  · intro p hp
    have hp' : ([(g.entry, g.children g.entry)] : List (Nat × List Nat)).getLast? =
      some p := hp
    simp only [List.getLast?_singleton, Option.some.injEq] at hp'
    show ([g.entry] : List Nat).getLast? = some p.1
    rw [← hp']
    rfl
  · intro h
    have h' : ([(g.entry, g.children g.entry)] : List (Nat × List Nat)) = [] := h
    exact List.noConfusion h'
  · show List.Forall₂ _ ([1] : List Nat) ([(g.entry, g.children g.entry)] : List (Nat × List Nat))
    refine List.Forall₂.cons ?_ List.Forall₂.nil
    show 1 ≤ dnum (DFSVisitOne g g.entry initIterator) g.entry
    rw [hde]
  · intro p hp mn hmn
    have hp' : ([(g.entry, g.children g.entry)] : List (Nat × List Nat)).getLast? =
      some p := hp
    simp only [List.getLast?_singleton, Option.some.injEq] at hp'
    have hmn' : mn ∈ ([1] : List Nat) := hmn
    have hmv : mn = 1 := by simpa using hmn'
    subst hmv
    rw [← hp']
    show dnum (DFSVisitOne g g.entry initIterator) g.entry ≤ 1
    rw [hde]
  · intro x hx v hv
    rw [htr x] at hx
    subst hx
    rw [hproc] at hv
    simp at hv
  · intro x hx v hv
    exact absurd hx (hnf x)
  · intro x hx v hv hva
    rw [hact x] at hx
    subst hx
    rw [hproc] at hv
    simp at hv


/-- Specification of `scc_begin`: when it completes, the fresh iterator is
well-formed, already holds a first (nonempty) SCC, and the finalized nodes are
exactly that SCC. -/
theorem beginIter_spec (g : Graph) (fuel : Nat) (s0 : SccIterator)
    (h : beginIter g fuel = some s0) :
    IterWF g s0 ∧ s0.CurrentSCC ≠ [] ∧
      (∀ n, Finalized s0 n ↔ n ∈ s0.CurrentSCC) ∧ Tracked s0 g.entry := by
  unfold beginIter at h
  obtain ⟨hwf0, hK1b, hK2b, hdi⟩ :=
    GetNextSCC_spec g fuel (DFSVisitOne g g.entry initIterator) s0 (WF_begin_base g) h
  have hnf : ∀ n, ¬ Finalized (DFSVisitOne g g.entry initIterator) n := by
    intro n hf
    unfold Finalized at hf
    rw [show (DFSVisitOne g g.entry initIterator).nodeVisitNumbers =
      [(g.entry, (some 1 : VisitRec))] from rfl] at hf
    show False
    by_cases hc : g.entry = n
    · rw [show mapFind [(g.entry, (some 1 : VisitRec))] n =
        if g.entry = n then some (some 1) else none from rfl, if_pos hc] at hf
      injection hf with hf
      exact Option.noConfusion hf
    · rw [show mapFind [(g.entry, (some 1 : VisitRec))] n =
        if g.entry = n then some (some 1) else none from rfl, if_neg hc] at hf
      exact Option.noConfusion hf
  rcases hdi with ⟨he, hnil⟩ | ⟨h1, h2, h3, h4, h5, h6⟩
  · exfalso
    have : (DFSVisitOne g g.entry initIterator).VisitStack =
        [(g.entry, g.children g.entry)] := rfl
    rw [this] at hnil
    exact List.noConfusion hnil
  · have hfin : ∀ n, Finalized s0 n ↔ n ∈ s0.CurrentSCC := by
      intro n
      rw [h3 n]
      constructor
      · intro hc
        rcases hc with hc | hc
        · exact absurd hc (hnf n)
        · exact hc
      · exact fun hc => Or.inr hc
    refine ⟨⟨hwf0, ?_, h2, fun hc => absurd hc h1⟩, h1, hfin, ?_⟩
    · intro n hn
      exact (hfin n).mpr hn
    · refine h5 g.entry ?_
      exact (WF_begin_base g).entryTracked

theorem advanceN_IterWF (g : Graph) (fuel : Nat) :
    ∀ (n : Nat) (s s' : SccIterator), IterWF g s →
    advanceN g fuel n s = some s' → IterWF g s' := by
  intro n
  induction n with
  | zero =>
    intro s s' hiw h
    unfold advanceN at h
    injection h with h
    subst h
    exact hiw
  | succ n ih =>
    intro s s' hiw h
    unfold advanceN at h
    rcases hg : GetNextSCC g fuel s with _ | s1
    · rw [hg] at h
      exact Option.noConfusion h
    · rw [hg] at h
      exact ih s1 s' (IterWF_advance g fuel s s1 hiw hg) h

theorem stateAfter_IterWF (g : Graph) (fuel n : Nat) (s : SccIterator)
    (h : stateAfter g fuel n = some s) : IterWF g s := by
  unfold stateAfter at h
  rcases hb : beginIter g fuel with _ | s0
  · rw [hb] at h
    exact Option.noConfusion h
  · rw [hb] at h
    obtain ⟨hiw0, _, _, _⟩ := beginIter_spec g fuel s0 hb
    exact advanceN_IterWF g fuel n s0 s hiw0 h

theorem isEmpty_eq_nil (l : List Nat) (h : l.isEmpty = true) : l = [] := by
  cases l with
  | nil => rfl
  | cons a t => simp [List.isEmpty] at h

theorem mem_of_head_eq_some {α : Type} (l : List α) (a : α) (h : l.head? = some a) :
    a ∈ l := by
  cases l with
  | nil => exact Option.noConfusion h
  | cons x t =>
    injection h with h
    rw [← h]
    exact List.mem_cons_self x t

theorem getElem_zero_of_head {α : Type} (l : List α) (a : α) (h : l.head? = some a) :
    l[0]? = some a := by
  cases l with
  | nil => exact Option.noConfusion h
  | cons x t =>
    injection h with h
    rw [← h]
    exact List.getElem?_cons_zero

theorem runFrom_succ (g : Graph) (fuel st : Nat) (s : SccIterator) :
    runFrom g fuel (st + 1) s =
      if s.CurrentSCC.isEmpty then some ([], s)
      else
        match GetNextSCC g fuel s with
        | none => none
        | some s' =>
          match runFrom g fuel st s' with
          | none => none
          | some (l, e) => some (s.CurrentSCC :: l, e) := rfl

/-- The main loop invariant of a full enumeration (the
`for (I = scc_begin(G); !I.isAtEnd(); ++I)` pattern): the collected SCCs are
nonempty, pairwise disjoint, their union together with the previously
finalized nodes is exactly the finalized set of the final state, and every
child edge out of an emitted SCC lands in a previously finalized node or in an
SCC emitted no later. -/
theorem runFrom_spec (g : Graph) (fuel : Nat) :
    ∀ (steps : Nat) (s e : SccIterator) (l : List (List Nat)),
    IterWF g s →
    runFrom g fuel steps s = some (l, e) →
    IterWF g e ∧ e.CurrentSCC = [] ∧
      (∀ n, Finalized e n ↔ (Finalized s n ∨ ∃ scc ∈ l, n ∈ scc)) ∧
      ((l = [] ∧ s.CurrentSCC = []) ∨ l.head? = some s.CurrentSCC) ∧
      List.Pairwise (fun c1 c2 => ∀ n, n ∈ c1 → n ∈ c2 → False) l ∧
      (∀ scc ∈ l, ∀ n ∈ scc, Finalized s n → n ∈ s.CurrentSCC) ∧
      (∀ scc ∈ l, scc ≠ []) ∧
      (∀ i si, l[i]? = some si → ∀ u ∈ si, ∀ v ∈ g.children u,
        Finalized s v ∨ ∃ (j : Nat) (sj : List Nat),
          j ≤ i ∧ l[j]? = some sj ∧ v ∈ sj) := by
  intro steps
  induction steps with
  | zero =>
    intro s e l hiw h
    exact Option.noConfusion h
  | succ st ih =>
    intro s e l hiw h
    rw [runFrom_succ] at h
    by_cases hemp : s.CurrentSCC.isEmpty = true
    · rw [if_pos hemp] at h
      injection h with h
      injection h with hl he
      subst hl
      subst he
      have hnil := isEmpty_eq_nil _ hemp
      refine ⟨hiw, hnil, ?_, Or.inl ⟨rfl, hnil⟩, List.Pairwise.nil, ?_, ?_, ?_⟩
      · intro n
        simp
      · intro scc hscc
        exact absurd hscc (by simp)
      · intro scc hscc
        exact absurd hscc (by simp)
      · intro i si hi
        rw [show (([] : List (List Nat)))[i]? = none from by simp] at hi
        exact Option.noConfusion hi
    · rw [if_neg hemp] at h
      have hcne : s.CurrentSCC ≠ [] := fun hc => hemp (by rw [hc]; rfl)
      rcases hg : GetNextSCC g fuel s with _ | s'
      · rw [hg] at h
        exact Option.noConfusion h
      · rw [hg] at h
        have h2 : (match runFrom g fuel st s' with
          | none => none
          | some (l2, e2) => some (s.CurrentSCC :: l2, e2)) = some (l, e) := h
        rcases hr : runFrom g fuel st s' with _ | ⟨l', e'⟩
        · rw [hr] at h2
          exact Option.noConfusion h2
        · rw [hr] at h2
          have h3 : some (s.CurrentSCC :: l', e') = some (l, e) := h2
          injection h3 with h3
          injection h3 with hl he
          subst hl
          subst he
          have hiw' : IterWF g s' := IterWF_advance g fuel s s' hiw hg
          obtain ⟨hwf', hK1, hK2, hdi⟩ := GetNextSCC_spec g fuel s s' hiw.wf hg
          have hFmono : ∀ n, Finalized s n → Finalized s' n := by
            rcases hdi with ⟨hs', _⟩ | ⟨_, _, h3', _, _, _⟩
            · subst hs'
              exact fun n hf => hf
            · exact fun n hf => (h3' n).mpr (Or.inl hf)
          have hFback : ∀ n, Finalized s' n → Finalized s n ∨ n ∈ s'.CurrentSCC := by
            rcases hdi with ⟨hs', _⟩ | ⟨_, _, h3', _, _, _⟩
            · subst hs'
              exact fun n hf => Or.inl hf
            · exact fun n hf => (h3' n).mp hf
          have hFnew : ∀ n ∈ s'.CurrentSCC, ¬ Finalized s n := by
            rcases hdi with ⟨hs', _⟩ | ⟨_, _, _, h4', _, _⟩
            · subst hs'
              intro n hn
              exact absurd hn (List.not_mem_nil n)
            · exact h4'
          obtain ⟨hiwE, hEnil, hacc, hhead, hpw, hfold, hnonempty, hord⟩ :=
            ih s' e' l' hiw' hr
          have hcurmem : ∀ n, n ∈ s'.CurrentSCC → ∃ scc ∈ l', n ∈ scc := by
            intro n hn
            rcases hhead with ⟨hl'nil, hcnil⟩ | hh
            · rw [hcnil] at hn
              exact absurd hn (List.not_mem_nil n)
            · exact ⟨s'.CurrentSCC, mem_of_head_eq_some _ _ hh, hn⟩
          have hcur0 : s'.CurrentSCC ≠ [] → l'[0]? = some s'.CurrentSCC := by
            intro hne'
            rcases hhead with ⟨_, hcnil⟩ | hh
            · exact absurd hcnil hne'
            · exact getElem_zero_of_head _ _ hh
          refine ⟨hiwE, hEnil, ?_, Or.inr rfl, ?_, ?_, ?_, ?_⟩
          · intro n
            rw [hacc n]
            constructor
            · intro hc
              rcases hc with hf' | ⟨scc, hscc, hn⟩
              · rcases hFback n hf' with hf | hc'
                · exact Or.inl hf
                · obtain ⟨scc, hscc, hn⟩ := hcurmem n hc'
                  exact Or.inr ⟨scc, List.mem_cons_of_mem _ hscc, hn⟩
              · exact Or.inr ⟨scc, List.mem_cons_of_mem _ hscc, hn⟩
            · intro hc
              rcases hc with hf | ⟨scc, hscc, hn⟩
              · exact Or.inl (hFmono n hf)
              · rcases List.mem_cons.mp hscc with hsc | hsc
                · subst hsc
                  exact Or.inl (hFmono n (hiw.curFinal n hn))
                · exact Or.inr ⟨scc, hsc, hn⟩
          · refine List.Pairwise.cons ?_ hpw
            intro c2 hc2 n hn1 hn2
            have hfin : Finalized s' n := hFmono n (hiw.curFinal n hn1)
            have hmem : n ∈ s'.CurrentSCC := hfold c2 hc2 n hn2 hfin
            exact hFnew n hmem (hiw.curFinal n hn1)
          · intro scc hscc n hn hfin
            rcases List.mem_cons.mp hscc with hsc | hsc
            · subst hsc
              exact hn
            · exact absurd hfin (hFnew n (hfold scc hsc n hn (hFmono n hfin)))
          · intro scc hscc
            rcases List.mem_cons.mp hscc with hsc | hsc
            · subst hsc
              exact hcne
            · exact hnonempty scc hsc
          · intro i si hi u hu v hv
            cases i with
            | zero =>
              rw [List.getElem?_cons_zero] at hi
              injection hi with hi
              subst hi
              have hfu : Finalized s u := hiw.curFinal u hu
              exact Or.inl (hiw.wf.finalClosed u hfu v hv)
            | succ i2 =>
              rw [List.getElem?_cons_succ] at hi
              rcases hord i2 si hi u hu v hv with hfv | ⟨j, sj, hjle, hjget, hvj⟩
              · rcases hFback v hfv with hfv' | hc'
                · exact Or.inl hfv'
                · have hne' : s'.CurrentSCC ≠ [] := by
                    intro hc
                    rw [hc] at hc'
                    exact absurd hc' (List.not_mem_nil v)
                  refine Or.inr ⟨1, s'.CurrentSCC, ?_, ?_, hc'⟩
                  · exact Nat.succ_le_succ (Nat.zero_le i2)
                  · rw [List.getElem?_cons_succ]
                    exact hcur0 hne'
              · refine Or.inr ⟨j + 1, sj, Nat.succ_le_succ hjle, ?_, hvj⟩
                rw [List.getElem?_cons_succ]
                exact hjget

/-! ### Fuel irrelevance: the algorithm is a deterministic function -/

theorem DFSVisitChildren_mono (g : Graph) :
    ∀ (f f2 : Nat) (s s1 : SccIterator), f ≤ f2 →
    DFSVisitChildren g f s = some s1 → DFSVisitChildren g f2 s = some s1 := by
  intro f
  induction f with
  | zero =>
    intro f2 s s1 _ h
    exact Option.noConfusion h
  | succ f ih =>
    intro f2 s s1 hle h
    obtain ⟨f3, rfl⟩ : ∃ f3, f2 = f3 + 1 := ⟨f2 - 1, by omega⟩
    have hle3 : f ≤ f3 := by omega
    rcases hvs : s.VisitStack with _ | ⟨⟨N, cur⟩, rest⟩
    · rw [DFSVisitChildren_nil g f s hvs] at h
      rw [DFSVisitChildren_nil g f3 s hvs]
      exact h
    · rcases cur with _ | ⟨c, cs⟩
      · rw [DFSVisitChildren_cursorNil g f s N rest hvs] at h
        rw [DFSVisitChildren_cursorNil g f3 s N rest hvs]
        exact h
      · rcases hfind : mapFind s.nodeVisitNumbers c with _ | v
        · rw [DFSVisitChildren_new g f s N c cs rest hvs hfind] at h
          rw [DFSVisitChildren_new g f3 s N c cs rest hvs hfind]
          exact ih f3 _ s1 hle3 h
        · rcases v with _ | cn
          · rw [DFSVisitChildren_final g f s N c cs rest hvs hfind] at h
            rw [DFSVisitChildren_final g f3 s N c cs rest hvs hfind]
            exact ih f3 _ s1 hle3 h
          · rw [DFSVisitChildren_lower g f s N c cn cs rest hvs hfind] at h
            rw [DFSVisitChildren_lower g f3 s N c cn cs rest hvs hfind]
            exact ih f3 _ s1 hle3 h

theorem GetNextSCCLoop_stuck (g : Graph) (fuel : Nat) (s s1 : SccIterator)
    (q : Nat × List Nat) (qrest : List (Nat × List Nat))
    (vN : Nat) (cur1 : List Nat) (restVS : List (Nat × List Nat))
    (m1 : Nat) (restMin : List Nat)
    (hvs : s.VisitStack = q :: qrest)
    (hdfs : DFSVisitChildren g fuel s = some s1)
    (hvs1 : s1.VisitStack = (vN, cur1) :: restVS)
    (hmins1 : s1.MinVisitNumStack = m1 :: restMin)
    (hfind2 : mapFind s1.nodeVisitNumbers vN = none ∨
      mapFind s1.nodeVisitNumbers vN = some none) :
    GetNextSCCLoop g (fuel + 1) s =
      GetNextSCCLoop g fuel
        { s1 with VisitStack := restVS,
                  MinVisitNumStack := lowerTopMin m1 restMin } := by
  obtain ⟨v0, mp0, st0, cur0, vs0, mins0⟩ := s
  obtain ⟨v1, mp1, st1, cur2, vs1, mns1⟩ := s1
  simp only at hvs hvs1 hmins1
  subst hvs hvs1 hmins1
  rcases hfind2 with hf | hf
  · simp only at hf
    simp only [GetNextSCCLoop, hdfs, hf]
  · simp only at hf
    simp only [GetNextSCCLoop, hdfs, hf]

theorem GetNextSCCLoop_deadEnd (g : Graph) (fuel : Nat) (s s1 : SccIterator)
    (q : Nat × List Nat) (qrest : List (Nat × List Nat))
    (hvs : s.VisitStack = q :: qrest)
    (hdfs : DFSVisitChildren g fuel s = some s1)
    (hbad : s1.VisitStack = [] ∨ s1.MinVisitNumStack = []) :
    GetNextSCCLoop g (fuel + 1) s = none := by
  obtain ⟨v0, mp0, st0, cur0, vs0, mins0⟩ := s
  obtain ⟨v1, mp1, st1, cur2, vs1, mns1⟩ := s1
  simp only at hvs
  subst hvs
  rcases hbad with hb | hb
  · simp only at hb
    subst hb
    simp [GetNextSCCLoop, hdfs]
  · simp only at hb
    subst hb
    rcases vs1 with _ | ⟨⟨a, b⟩, rest⟩
    · simp [GetNextSCCLoop, hdfs]
    · simp [GetNextSCCLoop, hdfs]

theorem GetNextSCCLoop_mono (g : Graph) :
    ∀ (f f2 : Nat) (s s' : SccIterator), f ≤ f2 →
    GetNextSCCLoop g f s = some s' → GetNextSCCLoop g f2 s = some s' := by
  intro f
  induction f with
  | zero =>
    intro f2 s s' _ h
    exact Option.noConfusion h
  | succ f ih =>
    intro f2 s s' hle h
    obtain ⟨f3, rfl⟩ : ∃ f3, f2 = f3 + 1 := ⟨f2 - 1, by omega⟩
    have hle3 : f ≤ f3 := by omega
    rcases hvs : s.VisitStack with _ | ⟨q, qrest⟩
    · rw [GetNextSCCLoop_nilEq g f s hvs] at h
      rw [GetNextSCCLoop_nilEq g f3 s hvs]
      exact h
    · rcases hdfs : DFSVisitChildren g f s with _ | s1
      · rw [GetNextSCCLoop_dfsNone g f s q qrest hvs hdfs] at h
        exact Option.noConfusion h
      · have hdfs3 : DFSVisitChildren g f3 s = some s1 :=
          DFSVisitChildren_mono g f f3 s s1 hle3 hdfs
        rcases hvs1 : s1.VisitStack with _ | ⟨⟨vN, cur1⟩, restVS⟩
        · rw [GetNextSCCLoop_deadEnd g f s s1 q qrest hvs hdfs (Or.inl hvs1)] at h
          exact Option.noConfusion h
        · rcases hmins1 : s1.MinVisitNumStack with _ | ⟨m1, restMin⟩
          · rw [GetNextSCCLoop_deadEnd g f s s1 q qrest hvs hdfs (Or.inr hmins1)] at h
            exact Option.noConfusion h
          · rcases hfind : mapFind s1.nodeVisitNumbers vN with _ | v
            · rw [GetNextSCCLoop_stuck g f s s1 q qrest vN cur1 restVS m1 restMin
                hvs hdfs hvs1 hmins1 (Or.inl hfind)] at h
              rw [GetNextSCCLoop_stuck g f3 s s1 q qrest vN cur1 restVS m1 restMin
                hvs hdfs3 hvs1 hmins1 (Or.inl hfind)]
              exact ih f3 _ s' hle3 h
            · rcases v with _ | d
              · rw [GetNextSCCLoop_stuck g f s s1 q qrest vN cur1 restVS m1 restMin
                  hvs hdfs hvs1 hmins1 (Or.inr hfind)] at h
                rw [GetNextSCCLoop_stuck g f3 s s1 q qrest vN cur1 restVS m1 restMin
                  hvs hdfs3 hvs1 hmins1 (Or.inr hfind)]
                exact ih f3 _ s' hle3 h
              · rw [GetNextSCCLoop_step g f s s1 vN cur1 restVS m1 restMin q qrest d
                  hvs hdfs hvs1 hmins1 hfind] at h
                rw [GetNextSCCLoop_step g f3 s s1 vN cur1 restVS m1 restMin q qrest d
                  hvs hdfs3 hvs1 hmins1 hfind]
                by_cases hmd : m1 = d
                · rw [if_pos hmd] at h ⊢
                  exact h
                · rw [if_neg hmd] at h ⊢
                  exact ih f3 _ s' hle3 h

theorem GetNextSCC_det (g : Graph) (f1 f2 : Nat) (s a b : SccIterator)
    (h1 : GetNextSCC g f1 s = some a) (h2 : GetNextSCC g f2 s = some b) :
    a = b := by
  unfold GetNextSCC at h1 h2
  rcases Nat.le_total f1 f2 with hle | hle
  · rw [GetNextSCCLoop_mono g f1 f2 _ a hle h1] at h2
    injection h2
  · rw [GetNextSCCLoop_mono g f2 f1 _ b hle h2] at h1
    injection h1 with h1
    exact h1.symm

theorem runFrom_det (g : Graph) (f1 f2 : Nat) :
    ∀ (st1 st2 : Nat) (s : SccIterator) (r1 r2 : List (List Nat) × SccIterator),
    runFrom g f1 st1 s = some r1 → runFrom g f2 st2 s = some r2 → r1 = r2 := by
  intro st1
  induction st1 with
  | zero =>
    intro st2 s r1 r2 h1 _
    exact Option.noConfusion h1
  | succ st ih =>
    intro st2 s r1 r2 h1 h2
    rcases st2 with _ | st2
    · exact Option.noConfusion h2
    · rw [runFrom_succ] at h1 h2
      by_cases hemp : s.CurrentSCC.isEmpty = true
      · rw [if_pos hemp] at h1 h2
        injection h1 with h1
        injection h2 with h2
        rw [← h1, ← h2]
      · rw [if_neg hemp] at h1 h2
        rcases hg1 : GetNextSCC g f1 s with _ | s1
        · rw [hg1] at h1
          exact Option.noConfusion h1
        rcases hg2 : GetNextSCC g f2 s with _ | s2
        · rw [hg2] at h2
          exact Option.noConfusion h2
        rw [hg1] at h1
        rw [hg2] at h2
        have hs12 : s1 = s2 := GetNextSCC_det g f1 f2 s s1 s2 hg1 hg2
        subst hs12
        have h1' : (match runFrom g f1 st s1 with
          | none => none
          | some (l2, e2) => some (s.CurrentSCC :: l2, e2)) = some r1 := h1
        have h2' : (match runFrom g f2 st2 s1 with
          | none => none
          | some (l2, e2) => some (s.CurrentSCC :: l2, e2)) = some r2 := h2
        rcases hr1 : runFrom g f1 st s1 with _ | ⟨l1, e1⟩
        · rw [hr1] at h1'
          exact Option.noConfusion h1'
        rcases hr2 : runFrom g f2 st2 s1 with _ | ⟨l2, e2⟩
        · rw [hr2] at h2'
          exact Option.noConfusion h2'
        rw [hr1] at h1'
        rw [hr2] at h2'
        have heq : (l1, e1) = ((l2 : List (List Nat)), e2) :=
          ih st2 s1 (l1, e1) (l2, e2) hr1 hr2
        have h1'' : some (s.CurrentSCC :: l1, e1) = some r1 := h1'
        have h2'' : some (s.CurrentSCC :: l2, e2) = some r2 := h2'
        injection h1'' with h1''
        injection h2'' with h2''
        rw [← h1'', ← h2'']
        injection heq with hl he
        rw [hl, he]

/-! ### C3: characterization of hasLoop on a live iterator -/

/-- C3: on a non-exhausted iterator, `hasLoop` returns `true` exactly when the
current SCC has more than one node, or consists of a single node that has a
direct edge to itself in the graph's child sequence. -/
theorem hasLoop_characterization (g : Graph) (s : SccIterator)
    (h : s.CurrentSCC ≠ []) :
    hasLoop g s = some true ↔
      1 < s.CurrentSCC.length ∨
        ∃ n, s.CurrentSCC = [n] ∧ n ∈ g.children n := by
  obtain ⟨v, m, st, cur, vs, mins⟩ := s
  simp only at h ⊢
  match cur with
  | [] => exact absurd rfl h
  | [n] => simp [hasLoop, List.contains]
  | a :: b :: t => simp [hasLoop]

/-- C3 witness: the singleton SCC {7} of the self-loop graph. -/
theorem hasLoop_characterization_witness :
    ([7] : List Nat) ≠ [] ∧
      (hasLoop selfLoopGraph ⟨1, [(7, none)], [], [7], [], []⟩ = some true ↔
        1 < ([7] : List Nat).length ∨
          ∃ n, ([7] : List Nat) = [n] ∧ n ∈ selfLoopGraph.children n) :=
  ⟨by decide, hasLoop_characterization selfLoopGraph ⟨1, [(7, none)], [], [7], [], []⟩ (by decide)⟩

/-! ### C6: ReplaceNode re-keys the visit record -/

/-- C6 counterexample: node 5 is tracked (with discovery number 3), yet after
`ReplaceNode 5 5` the "new" node 5 is no longer mapped at all — the code first
copies the record onto `New` and then erases `Old`, so when the two coincide
the entry is simply lost, contradicting the claim as stated for every tracked
`old`. -/
theorem ReplaceNode_self_loses_entry :
    mapFind trackedState.nodeVisitNumbers 5 = some (some 3) ∧
      (ReplaceNode trackedState 5 5).map
        (fun t => mapFind t.nodeVisitNumbers 5) = some none := by decide

/-- C6 (amended with `New ≠ Old`): if `Old` is currently tracked and `New` is a
different node, `ReplaceNode` re-keys the visit record: afterwards `New` holds
exactly the record `Old` held (live discovery number or finalized sentinel) and
`Old` is no longer tracked.  The unique-keys hypothesis is a structural
invariant of `DenseMap`. -/
theorem ReplaceNode_rekeys (s : SccIterator) (Old New : Nat) (v : VisitRec)
    (hne : New ≠ Old) (hk : (mapKeys s.nodeVisitNumbers).Nodup)
    (hf : mapFind s.nodeVisitNumbers Old = some v) :
    ∃ s', ReplaceNode s Old New = some s' ∧
      mapFind s'.nodeVisitNumbers New = some v ∧
      mapFind s'.nodeVisitNumbers Old = none := by
  refine ⟨{ s with nodeVisitNumbers := mapErase (mapInsert s.nodeVisitNumbers New v) Old },
    ?_, ?_, ?_⟩
  · simp [ReplaceNode, hf]
  · show mapFind (mapErase (mapInsert s.nodeVisitNumbers New v) Old) New = some v
    rw [mapFind_mapErase_ne _ _ _ hne, mapFind_mapInsert_self]
  · show mapFind (mapErase (mapInsert s.nodeVisitNumbers New v) Old) Old = none
    exact mapFind_mapErase_self _ _ (nodup_mapKeys_mapInsert _ _ _ hk)

/-- C6 witness: re-keying node 5 to node 9 in a concrete state. -/
theorem ReplaceNode_rekeys_witness :
    ((9 : Nat) ≠ 5 ∧ (mapKeys trackedState.nodeVisitNumbers).Nodup ∧
        mapFind trackedState.nodeVisitNumbers 5 = some (some 3)) ∧
      ∃ s', ReplaceNode trackedState 5 9 = some s' ∧
        mapFind s'.nodeVisitNumbers 9 = some (some 3) ∧
        mapFind s'.nodeVisitNumbers 5 = none :=
  ⟨⟨by decide, by decide, by decide⟩,
    ReplaceNode_rekeys trackedState 5 9 (some 3) (by decide) (by decide) (by decide)⟩

/-! ### C8: all failure modes are loud precondition violations -/

/-- C8: the three caller-misuse cases fail loudly (modeled as `none`, the
assertion failure) instead of returning a default value, and when the
preconditions hold each operation succeeds — no other failure mode exists. -/
theorem assertion_failure_modes (g : Graph) (s : SccIterator) (o n : Nat) :
    (s.CurrentSCC = [] → derefIter s = none) ∧
      (s.CurrentSCC ≠ [] → derefIter s = some s.CurrentSCC) ∧
      (s.CurrentSCC = [] → hasLoop g s = none) ∧
      (s.CurrentSCC ≠ [] → (hasLoop g s).isSome = true) ∧
      (mapFind s.nodeVisitNumbers o = none → ReplaceNode s o n = none) ∧
      (mapFind s.nodeVisitNumbers o ≠ none → (ReplaceNode s o n).isSome = true) := by
  obtain ⟨v, m, st, cur, vs, mins⟩ := s
  refine ⟨?_, ?_, ?_, ?_, ?_, ?_⟩
  · intro h; simp only at h; simp [derefIter, h]
  · intro h; simp only at h; simp [derefIter, h]
  · intro h; simp only at h; subst h; rfl
  · intro h
    simp only at h
    match cur with
    | [] => exact absurd rfl h
    | [a] => simp [hasLoop]
    | a :: b :: t => simp [hasLoop]
  · intro h; simp only at h; simp [ReplaceNode, h]
  · intro h
    simp only at h
    rcases hf : mapFind m o with _ | w
    · exact absurd hf h
    · simp [ReplaceNode, hf]

/-- C8 witness: concrete instances of the three misuse cases and the three
success cases. -/
theorem assertion_failure_modes_witness :
    ((([] : List Nat) = [] → derefIter endIter = none) ∧
        (endIter.CurrentSCC ≠ [] → derefIter endIter = some endIter.CurrentSCC) ∧
        (endIter.CurrentSCC = [] → hasLoop chainGraph endIter = none) ∧
        (endIter.CurrentSCC ≠ [] → (hasLoop chainGraph endIter).isSome = true) ∧
        (mapFind endIter.nodeVisitNumbers 0 = none → ReplaceNode endIter 0 1 = none) ∧
        (mapFind endIter.nodeVisitNumbers 0 ≠ none →
          (ReplaceNode endIter 0 1).isSome = true)) ∧
      (trackedState.CurrentSCC ≠ [] ∨
        (mapFind trackedState.nodeVisitNumbers 5 ≠ none ∧
          (ReplaceNode trackedState 5 9).isSome = true)) :=
  ⟨assertion_failure_modes chainGraph endIter 0 1,
    Or.inr ⟨by decide,
      (assertion_failure_modes chainGraph trackedState 5 9).2.2.2.2.2 (by decide)⟩⟩

/-! ### C10: ReplaceNode touches only the visit map -/

/-- C10: a successful `ReplaceNode` call modifies only `nodeVisitNumbers`; the
visit counter, the frame stack, the pending-SCC stack, the current SCC, the
min stack — and hence the collection returned by `operator*` — are unchanged. -/
theorem ReplaceNode_frame_effect (s s' : SccIterator) (o n : Nat)
    (h : ReplaceNode s o n = some s') :
    s'.visitNum = s.visitNum ∧
      s'.SCCNodeStack = s.SCCNodeStack ∧
      s'.CurrentSCC = s.CurrentSCC ∧
      s'.VisitStack = s.VisitStack ∧
      s'.MinVisitNumStack = s.MinVisitNumStack ∧
      derefIter s' = derefIter s := by
  rcases hf : mapFind s.nodeVisitNumbers o with _ | v
  · simp [ReplaceNode, hf] at h
  · simp [ReplaceNode, hf] at h
    subst h
    simp [derefIter]

/-- C10 witness: replacing node 5 by node 9 in a concrete state leaves every
component except the visit map unchanged. -/
theorem ReplaceNode_frame_effect_witness :
    ∃ s', ReplaceNode trackedState 5 9 = some s' ∧
      (s'.visitNum = trackedState.visitNum ∧
        s'.SCCNodeStack = trackedState.SCCNodeStack ∧
        s'.CurrentSCC = trackedState.CurrentSCC ∧
        s'.VisitStack = trackedState.VisitStack ∧
        s'.MinVisitNumStack = trackedState.MinVisitNumStack ∧
        derefIter s' = derefIter trackedState) :=
  ⟨⟨3, [(9, some 3)], [5], [], [(5, [])], [3]⟩, by decide,
    ReplaceNode_frame_effect trackedState ⟨3, [(9, some 3)], [5], [], [(5, [])], [3]⟩ 5 9
      (by decide)⟩

/-! ### C4: begin constructs at the entry node and advances to the first SCC -/

/-- C4: `scc_begin` starts the traversal at the graph's designated entry node
(`DFSVisitOne(entryN)`) and immediately runs `GetNextSCC`, so a successfully
constructed iterator already holds a nonempty current SCC: it is not at the
end, the entry node is tracked, and `operator*` succeeds. -/
theorem begin_advances_to_first_scc (g : Graph) (fuel : Nat) (s0 : SccIterator)
    (h : beginIter g fuel = some s0) :
    beginIter g fuel = GetNextSCC g fuel (DFSVisitOne g g.entry initIterator) ∧
      s0.CurrentSCC ≠ [] ∧ isAtEnd s0 = false ∧ Tracked s0 g.entry ∧
      derefIter s0 = some s0.CurrentSCC := by
  obtain ⟨hiw, hne, hfin, htr⟩ := beginIter_spec g fuel s0 h
  refine ⟨rfl, hne, ?_, htr, ?_⟩
  · unfold isAtEnd
    rcases hc : s0.CurrentSCC with _ | ⟨a, t⟩
    · exact absurd hc hne
    · rfl
  · unfold derefIter
    rw [if_neg (fun hc => hne (isEmpty_eq_nil _ hc))]

/-- C4 witness: on the chain graph the constructed iterator holds the SCC {2}. -/
theorem begin_advances_to_first_scc_witness :
    beginIter chainGraph 20 = some beginChainState ∧
      (beginIter chainGraph 20 =
          GetNextSCC chainGraph 20
            (DFSVisitOne chainGraph chainGraph.entry initIterator) ∧
        beginChainState.CurrentSCC ≠ [] ∧ isAtEnd beginChainState = false ∧
        Tracked beginChainState chainGraph.entry ∧
        derefIter beginChainState = some beginChainState.CurrentSCC) :=
  ⟨by decide, begin_advances_to_first_scc chainGraph 20 beginChainState (by decide)⟩

/-! ### C5: characterization of the exhausted state -/

/-- C5: at every state reachable as `scc_begin` followed by `operator++`
calls, `isAtEnd` returns true exactly when the traversal stack and the
current SCC are both empty, and this is equivalent to comparing equal (under
`operator==`) to the default-constructed end iterator. -/
theorem atEnd_characterization (g : Graph) (fuel n : Nat) (s : SccIterator)
    (h : stateAfter g fuel n = some s) :
    (isAtEnd s = true ↔ (s.VisitStack = [] ∧ s.CurrentSCC = [])) ∧
      (isAtEnd s = true ↔ iterEq s endIter = true) := by
  have hiw := stateAfter_IterWF g fuel n s h
  have hmain : isAtEnd s = true ↔ (s.VisitStack = [] ∧ s.CurrentSCC = []) := by
    constructor
    · intro hat
      have hc : s.CurrentSCC = [] := isEmpty_eq_nil _ hat
      exact ⟨hiw.curEmpty hc, hc⟩
    · intro hvc
      unfold isAtEnd
      rw [hvc.2]
      rfl
  refine ⟨hmain, hmain.trans ?_⟩
  constructor
  · intro hvc
    show (s.VisitStack == ([] : List (Nat × List Nat)) &&
      (s.CurrentSCC == ([] : List Nat))) = true
    rw [hvc.1, hvc.2]
    rfl
  · intro hb
    have hb' : (s.VisitStack == ([] : List (Nat × List Nat))) = true ∧
        (s.CurrentSCC == ([] : List Nat)) = true := Bool.and_eq_true_iff.mp hb
    exact ⟨eq_of_beq hb'.1, eq_of_beq hb'.2⟩

/-- C5 witness: the exhausted state on the chain graph is at the end and
compares equal to the end iterator. -/
theorem atEnd_characterization_witness :
    stateAfter chainGraph 20 3 = some endChainState ∧
      ((isAtEnd endChainState = true ↔
          (endChainState.VisitStack = [] ∧ endChainState.CurrentSCC = [])) ∧
        (isAtEnd endChainState = true ↔ iterEq endChainState endIter = true)) :=
  ⟨by decide, atEnd_characterization chainGraph 20 3 endChainState (by decide)⟩

/-! ### C7: invariants of reachable enumerator states -/

/-- C7: at every reachable enumerator state, the two parallel stacks have
equal length, stored discovery numbers are unique per node and bounded by the
global counter, and each `operator++` preserves the records: a finalized node
stays finalized and is never assigned a new number (the record transitions
discovery → finalized exactly once), an active discovery number survives
unchanged unless its node is finalized, and every newly assigned number
strictly exceeds all previously assigned ones. -/
theorem enumeration_invariants (g : Graph) (fuel n : Nat) (s : SccIterator)
    (h : stateAfter g fuel n = some s) :
    s.MinVisitNumStack.length = s.VisitStack.length ∧
      (∀ x y dx dy, dnumOpt s x = some dx → dnumOpt s y = some dy →
        dx = dy → x = y) ∧
      (∀ x d, dnumOpt s x = some d → 1 ≤ d ∧ d ≤ s.visitNum) ∧
      (∀ s', GetNextSCC g fuel s = some s' →
        (∀ x, Finalized s x → Finalized s' x) ∧
        (∀ x, Finalized s x → ¬ Active s' x) ∧
        (∀ x d, dnumOpt s x = some d → dnumOpt s' x = some d ∨ Finalized s' x) ∧
        (∀ x d, dnumOpt s' x = some d → dnumOpt s x = some d ∨ s.visitNum < d)) := by
  have hiw := stateAfter_IterWF g fuel n s h
  have hwf := hiw.wf
  refine ⟨List.Forall₂.length_eq hwf.minsUpper, ?_, hwf.numPos, ?_⟩
  · intro x y dx dy hx hy hdeq
    by_contra hne
    have hmx : x ∈ s.SCCNodeStack := (hwf.activeMem x).mp (active_of_dnumOpt s x dx hx)
    have hmy : y ∈ s.SCCNodeStack := (hwf.activeMem y).mp (active_of_dnumOpt s y dy hy)
    have hpair : s.SCCNodeStack.Pairwise (fun a b => dnum s a ≠ dnum s b) :=
      hwf.sccSorted.imp (fun hlt => (Nat.ne_of_lt hlt).symm)
    have hsymm : Symmetric (fun a b => dnum s a ≠ dnum s b) :=
      fun a b hab he => hab he.symm
    have hneq := hpair.forall hsymm hmx hmy hne
    rw [dnum_eq s x dx hx, dnum_eq s y dy hy, hdeq] at hneq
    exact hneq rfl
  · intro s' hstep
    obtain ⟨hwf', hK1, hK2, hdi⟩ := GetNextSCC_spec g fuel s s' hwf hstep
    have hFmono : ∀ x, Finalized s x → Finalized s' x := by
      rcases hdi with ⟨hs', _⟩ | ⟨_, _, h3', _, _, _⟩
      · subst hs'
        exact fun x hf => hf
      · exact fun x hf => (h3' x).mpr (Or.inl hf)
    exact ⟨hFmono, fun x hf ha => active_not_finalized s' x ha (hFmono x hf),
      hK1, hK2⟩

/-- C7 witness: the invariants hold at the state reached on the chain graph
after one increment. -/
theorem enumeration_invariants_witness :
    stateAfter chainGraph 20 1 = some afterOneChainState ∧
      (afterOneChainState.MinVisitNumStack.length =
          afterOneChainState.VisitStack.length ∧
        (∀ x y dx dy, dnumOpt afterOneChainState x = some dx →
          dnumOpt afterOneChainState y = some dy → dx = dy → x = y) ∧
        (∀ x d, dnumOpt afterOneChainState x = some d →
          1 ≤ d ∧ d ≤ afterOneChainState.visitNum) ∧
        (∀ s', GetNextSCC chainGraph 20 afterOneChainState = some s' →
          (∀ x, Finalized afterOneChainState x → Finalized s' x) ∧
          (∀ x, Finalized afterOneChainState x → ¬ Active s' x) ∧
          (∀ x d, dnumOpt afterOneChainState x = some d →
            dnumOpt s' x = some d ∨ Finalized s' x) ∧
          (∀ x d, dnumOpt s' x = some d →
            dnumOpt afterOneChainState x = some d ∨
              afterOneChainState.visitNum < d))) :=
  ⟨by decide, enumeration_invariants chainGraph 20 1 afterOneChainState (by decide)⟩

/-! ### C9: the enumeration is deterministic -/

/-- C9: enumeration is a deterministic function of the graph and its entry
node: any two completed enumerations produce the same sequence of SCCs with
the same membership, independently of the fuel bounds used to drive the
loops. -/
theorem enumeration_deterministic (g : Graph) (f1 st1 f2 st2 : Nat)
    (l1 l2 : List (List Nat))
    (h1 : enumSCCs g f1 st1 = some l1) (h2 : enumSCCs g f2 st2 = some l2) :
    l1 = l2 := by
  unfold enumSCCs at h1 h2
  rcases hb1 : beginIter g f1 with _ | s1
  · rw [hb1] at h1
    exact Option.noConfusion h1
  rw [hb1] at h1
  rcases hb2 : beginIter g f2 with _ | s2
  · rw [hb2] at h2
    exact Option.noConfusion h2
  rw [hb2] at h2
  have hs : s1 = s2 := by
    unfold beginIter at hb1 hb2
    exact GetNextSCC_det g f1 f2 _ s1 s2 hb1 hb2
  subst hs
  have h1' : (match runFrom g f1 st1 s1 with
    | none => none
    | some (l, _) => some l) = some l1 := h1
  have h2' : (match runFrom g f2 st2 s1 with
    | none => none
    | some (l, _) => some l) = some l2 := h2
  rcases hr1 : runFrom g f1 st1 s1 with _ | ⟨la, ea⟩
  · rw [hr1] at h1'
    exact Option.noConfusion h1'
  rcases hr2 : runFrom g f2 st2 s1 with _ | ⟨lb, eb⟩
  · rw [hr2] at h2'
    exact Option.noConfusion h2'
  rw [hr1] at h1'
  rw [hr2] at h2'
  have ha : some la = some l1 := h1'
  have hbq : some lb = some l2 := h2'
  injection ha with ha
  injection hbq with hbq
  have heq : (la, ea) = (lb, eb) :=
    runFrom_det g f1 f2 st1 st2 s1 (la, ea) (lb, eb) hr1 hr2
  injection heq with hll hee
  rw [← ha, ← hbq, hll]

/-- C9 witness: two runs over the chain graph with different fuel bounds
yield the same sequence of SCCs. -/
theorem enumeration_deterministic_witness :
    enumSCCs chainGraph 20 20 = some [[2], [1], [0]] ∧
      enumSCCs chainGraph 30 25 = some [[2], [1], [0]] ∧
      ([[2], [1], [0]] : List (List Nat)) = [[2], [1], [0]] :=
  ⟨by decide, by decide,
    enumeration_deterministic chainGraph 20 20 30 25 [[2], [1], [0]]
      [[2], [1], [0]] (by decide) (by decide)⟩

/-! ### C2: the emitted SCCs partition the reachable node set -/

/-- C2: a completed enumeration emits pairwise-disjoint SCCs whose union is
exactly the set of nodes reachable from the entry node; in particular a node
unreachable from the entry never appears in any emitted SCC. -/
theorem emitted_sccs_partition_reachable (g : Graph) (fuel steps : Nat)
    (l : List (List Nat)) (h : enumSCCs g fuel steps = some l) :
    (∀ n, (∃ scc ∈ l, n ∈ scc) ↔ Reaches g g.entry n) ∧
      l.Pairwise (fun c1 c2 => ∀ n, n ∈ c1 → n ∈ c2 → False) ∧
      (∀ n, ¬ Reaches g g.entry n → ∀ scc ∈ l, n ∉ scc) := by
  unfold enumSCCs at h
  rcases hb : beginIter g fuel with _ | s0
  · rw [hb] at h
    exact Option.noConfusion h
  rw [hb] at h
  have h' : (match runFrom g fuel steps s0 with
    | none => none
    | some (l2, _) => some l2) = some l := h
  rcases hr : runFrom g fuel steps s0 with _ | ⟨l', e⟩
  · rw [hr] at h'
    exact Option.noConfusion h'
  rw [hr] at h'
  have h'' : some l' = some l := h'
  injection h'' with h''
  subst h''
  obtain ⟨hiw0, hcne0, hfin0, htr0⟩ := beginIter_spec g fuel s0 hb
  obtain ⟨hiwE, hEnil, hacc, hhead, hpw, hfold, hnonempty, hord⟩ :=
    runFrom_spec g fuel steps s0 e l' hiw0 hr
  have hmem_iff : ∀ n, Finalized e n ↔ ∃ scc ∈ l', n ∈ scc := by
    intro n
    rw [hacc n]
    constructor
    · intro hc
      rcases hc with hf0 | hx
      · have hn0 : n ∈ s0.CurrentSCC := (hfin0 n).mp hf0
        rcases hhead with ⟨_, hc0⟩ | hh
        · rw [hc0] at hn0
          exact absurd hn0 (List.not_mem_nil n)
        · exact ⟨s0.CurrentSCC, mem_of_head_eq_some _ _ hh, hn0⟩
      · exact hx
    · exact fun hx => Or.inr hx
  have hvsE : e.VisitStack = [] := hiwE.curEmpty hEnil
  have hsccE : e.SCCNodeStack = [] := hiwE.wf.emptyFrames hvsE
  have hnoact : ∀ n, ¬ Active e n := by
    intro n ha
    have hm : n ∈ e.SCCNodeStack := (hiwE.wf.activeMem n).mp ha
    rw [hsccE] at hm
    exact absurd hm (List.not_mem_nil n)
  have htrfin : ∀ n, Tracked e n → Finalized e n := by
    intro n ht
    rcases tracked_cases e n ht with ha | hf
    · exact absurd ha (hnoact n)
    · exact hf
  have hiff : ∀ n, (∃ scc ∈ l', n ∈ scc) ↔ Reaches g g.entry n := by
    intro n
    constructor
    · intro hx
      have hf : Finalized e n := (hmem_iff n).mpr hx
      exact hiwE.wf.reach n (finalized_tracked e n hf)
    · intro hreach
      have hfe : Finalized e g.entry := htrfin _ hiwE.wf.entryTracked
      have hS : Finalized e n :=
        reaches_closed g (Finalized e) g.entry hfe
          (fun u hu v hv => hiwE.wf.finalClosed u hu v hv) n hreach
      exact (hmem_iff n).mp hS
  refine ⟨hiff, hpw, ?_⟩
  intro n hnr scc hscc hmem
  exact hnr ((hiff n).mp ⟨scc, hscc, hmem⟩)

/-- C2 witness: on the chain graph the emitted SCCs {2}, {1}, {0} are
pairwise disjoint and cover exactly the nodes reachable from 0. -/
theorem emitted_sccs_partition_reachable_witness :
    enumSCCs chainGraph 20 20 = some [[2], [1], [0]] ∧
      ((∀ n, (∃ scc ∈ ([[2], [1], [0]] : List (List Nat)), n ∈ scc) ↔
          Reaches chainGraph chainGraph.entry n) ∧
        ([[2], [1], [0]] : List (List Nat)).Pairwise
          (fun c1 c2 => ∀ n, n ∈ c1 → n ∈ c2 → False) ∧
        (∀ n, ¬ Reaches chainGraph chainGraph.entry n →
          ∀ scc ∈ ([[2], [1], [0]] : List (List Nat)), n ∉ scc)) :=
  ⟨by decide,
    emitted_sccs_partition_reachable chainGraph 20 20 [[2], [1], [0]] (by decide)⟩

/-! ### C1: emission order is reverse topological -/

theorem pairwise_disjoint_index : ∀ (l : List (List Nat)),
    l.Pairwise (fun c1 c2 => ∀ n, n ∈ c1 → n ∈ c2 → False) →
    ∀ (i j : Nat) (si sj : List Nat), l[i]? = some si → l[j]? = some sj →
    ∀ n, n ∈ si → n ∈ sj → i = j := by
  intro l
  induction l with
  | nil =>
    intro _ i j si sj hi
    simp at hi
  | cons a t ih =>
    intro hp i j si sj hi hj n hni hnj
    rcases List.pairwise_cons.mp hp with ⟨hhead, htail⟩
    cases i with
    | zero =>
      rw [List.getElem?_cons_zero] at hi
      injection hi with hi
      subst hi
      cases j with
      | zero => rfl
      | succ j2 =>
        rw [List.getElem?_cons_succ] at hj
        have hjm : sj ∈ t := List.getElem?_mem hj
        exact (hhead sj hjm n hni hnj).elim
    | succ i2 =>
      cases j with
      | zero =>
        rw [List.getElem?_cons_zero] at hj
        injection hj with hj
        subst hj
        rw [List.getElem?_cons_succ] at hi
        have him : si ∈ t := List.getElem?_mem hi
        exact (hhead si him n hnj hni).elim
      | succ j2 =>
        rw [List.getElem?_cons_succ] at hi hj
        exact congrArg Nat.succ (ih htail i2 j2 si sj hi hj n hni hnj)

theorem chain_no_back_reach : ¬ Reaches chainGraph 1 0 := by
  intro h
  have hstep : ∀ u, 1 ≤ u → ∀ v ∈ chainGraph.children u, 1 ≤ v := by
    intro a ha v hv
    have hch : chainGraph.children a =
        (if a = 0 then [1] else if a = 1 then [2] else []) := rfl
    rw [hch] at hv
    by_cases h0 : a = 0
    · omega
    · by_cases h1 : a = 1
      · rw [if_neg h0, if_pos h1] at hv
        have hv2 : v = 2 := List.mem_singleton.mp hv
        omega
      · rw [if_neg h0, if_neg h1] at hv
        exact absurd hv (List.not_mem_nil v)
  have h0 : (1 : Nat) ≤ 0 :=
    reaches_closed chainGraph (fun m => 1 ≤ m) 1 (by omega) hstep 0 h
  omega

theorem chain_not_same_scc : ¬ SameSCC chainGraph 0 1 :=
  fun hs => chain_no_back_reach hs.2

/-- C1: the emission order is reverse topological over the SCC condensation:
if an edge leads from u (in the SCC emitted at position i) to v (in the SCC
emitted at position j) and the two endpoints lie in different SCCs, then
v's component is emitted no later than u's, i.e. j ≤ i. -/
theorem emission_order_reverse_topological (g : Graph) (fuel steps : Nat)
    (l : List (List Nat)) (h : enumSCCs g fuel steps = some l)
    (u v i j : Nat) (si sj : List Nat)
    (hi : l[i]? = some si) (hj : l[j]? = some sj)
    (hu : u ∈ si) (hv : v ∈ sj) (hedge : v ∈ g.children u)
    (hdiff : ¬ SameSCC g u v) : j ≤ i := by
  unfold enumSCCs at h
  rcases hb : beginIter g fuel with _ | s0
  · rw [hb] at h
    exact Option.noConfusion h
  rw [hb] at h
  have h' : (match runFrom g fuel steps s0 with
    | none => none
    | some (l2, _) => some l2) = some l := h
  rcases hr : runFrom g fuel steps s0 with _ | ⟨l', e⟩
  · rw [hr] at h'
    exact Option.noConfusion h'
  rw [hr] at h'
  have h'' : some l' = some l := h'
  injection h'' with h''
  subst h''
  obtain ⟨hiw0, hcne0, hfin0, htr0⟩ := beginIter_spec g fuel s0 hb
  obtain ⟨hiwE, hEnil, hacc, hhead, hpw, hfold, hnonempty, hord⟩ :=
    runFrom_spec g fuel steps s0 e l' hiw0 hr
  rcases hord i si hi u hu v hedge with hfv | ⟨j2, sj2, hj2le, hj2get, hvj2⟩
  · have hv0 : v ∈ s0.CurrentSCC := (hfin0 v).mp hfv
    rcases hhead with ⟨_, hc0⟩ | hh
    · rw [hc0] at hv0
      exact absurd hv0 (List.not_mem_nil v)
    · have h0 : l'[0]? = some s0.CurrentSCC := getElem_zero_of_head _ _ hh
      have hz : (0 : Nat) = j :=
        pairwise_disjoint_index l' hpw 0 j _ _ h0 hj v hv0 hv
      omega
  · have hz : j2 = j :=
      pairwise_disjoint_index l' hpw j2 j _ _ hj2get hj v hvj2 hv
    omega

/-- C1 witness: for the chain edge 0 → 1, the SCC {1} (position 1) is emitted
before the SCC {0} (position 2). -/
theorem emission_order_reverse_topological_witness :
    enumSCCs chainGraph 20 20 = some [[2], [1], [0]] ∧
      ([[2], [1], [0]] : List (List Nat))[2]? = some [0] ∧
      ([[2], [1], [0]] : List (List Nat))[1]? = some [1] ∧
      (0 : Nat) ∈ [0] ∧ (1 : Nat) ∈ [1] ∧ 1 ∈ chainGraph.children 0 ∧
      ¬ SameSCC chainGraph 0 1 ∧ (1 : Nat) ≤ 2 :=
  ⟨by decide, by decide, by decide, by decide, by decide, by decide,
    chain_not_same_scc,
    emission_order_reverse_topological chainGraph 20 20 [[2], [1], [0]]
      (by decide) 0 1 2 1 [0] [1] (by decide) (by decide) (by decide)
      (by decide) (by decide) chain_not_same_scc⟩

end SCC
